import Mathlib

set_option maxHeartbeats 1000000

/-!
Verification of the pnp-opt pick-and-place scheduler.

This file gives a shallow embedding of the core of the repository
(`model/placement_model.py`, `model/objects/components.py`,
`model/objects/setup.py`, `model/engine.py`) and proves or refutes the
frozen claims about it.  Machine ids and part types are embedded as
naturals, coordinates, distances and times as rationals; Python dicts of
distances become functions; fallible code returns `Except`.
-/

namespace PnpOpt

/-- Numeric value (0 or 1) of a binary decision variable. -/
def b2n (b : Bool) : ℕ := if b then 1 else 0

/-- An assignment of the binary variables `p[i, j, t]` created by
`PlacementModel._set_vars` (`self.p = Var(self.trip_idx, self.arc_idx,
within=Binary)`).  Only the entries with `i ≠ j`, `i, j ≤ n`, `t ≤ n`
correspond to actual variables of the model; all definitions below only
ever read those entries. -/
abbrev Assignment := ℕ → ℕ → ℕ → Bool

/-- `Σ_{i ∈ node_idx, i ≠ v} p[i, v, t]`: number of arcs arriving at node
`v` at step `t` (node 0 is the feeder, nodes `1..n` the placements). -/
def arrivals (n : ℕ) (p : Assignment) (v t : ℕ) : ℕ :=
  ∑ i ∈ (Finset.range (n + 1)).erase v, b2n (p i v t)

/-- `Σ_{j ∈ node_idx, j ≠ v} p[v, j, t]`: number of arcs departing from
node `v` at step `t`. -/
def departures (n : ℕ) (p : Assignment) (v t : ℕ) : ℕ :=
  ∑ j ∈ (Finset.range (n + 1)).erase v, b2n (p v j t)

/-- `Σ_{(i,j) ∈ trip_idx} p[i, j, t]`: number of arcs traversed at step
`t`.  `trip_idx` is exactly the set of ordered pairs of distinct nodes in
`0..n` (`_preprocessing` enumerates feeder→placement, placement→feeder and
placement→placement trips). -/
def arcsAt (n : ℕ) (p : Assignment) (t : ℕ) : ℕ :=
  ∑ i ∈ Finset.range (n + 1), ∑ j ∈ (Finset.range (n + 1)).erase i, b2n (p i j t)

/-- The constraint system posted by `PlacementModel._set_constraints`, in
source order: one arc per step (`c_single_arc` over `arc_idx = 0..n`),
start at feeder (`c_start_feeder`), no arrival at the feeder at `t = 0`
(`c_feeder_no_arrive_at_start`), end at feeder (`c_end_feeder`), no
departure from the feeder at `t = n` (`c_feeder_no_departure_at_end`),
flow continuity at each placement for `t ∈ 1..n-1` (`c_continuity` over
`place_idx × arc_idx_1`), one departure and one arrival per placement
(`c_placement_one_departure`, `c_placement_one_arrival`). -/
def satisfiesModel (n : ℕ) (p : Assignment) : Prop :=
  (∀ t ≤ n, arcsAt n p t = 1) ∧
  departures n p 0 0 = 1 ∧
  arrivals n p 0 0 = 0 ∧
  arrivals n p 0 n = 1 ∧
  departures n p 0 n = 0 ∧
  (∀ v ≤ n, 1 ≤ v → ∀ t ≤ n - 1, 1 ≤ t → arrivals n p v (t - 1) = departures n p v t) ∧
  (∀ v ≤ n, 1 ≤ v → ∑ t ∈ Finset.range (n + 1), departures n p v t = 1) ∧
  (∀ v ≤ n, 1 ≤ v → ∑ t ∈ Finset.range (n + 1), arrivals n p v t = 1)

instance satisfiesModelDec (n : ℕ) (p : Assignment) : Decidable (satisfiesModel n p) := by
  unfold satisfiesModel
  infer_instance

/-- Node visited at position `t` of the closed walk
`feeder → π(1) → … → π(n) → feeder` determined by a permutation `π` of the
placements: node `0` (the feeder) at positions `0` and `n + 1`, placement
`π(t - 1) + 1` at positions `1..n`. -/
def nodeOf (n : ℕ) (pi : Equiv.Perm (Fin n)) (t : ℕ) : ℕ :=
  if h : 1 ≤ t ∧ t ≤ n then (pi ⟨t - 1, by omega⟩).val + 1 else 0

/-- `p` encodes the closed walk of `π`: for every actual variable
`p[i, j, t]`, the variable is 1 exactly when `(i, j)` is the arc traversed
at step `t` of the walk. -/
def encodes (n : ℕ) (pi : Equiv.Perm (Fin n)) (p : Assignment) : Prop :=
  ∀ i ≤ n, ∀ j ≤ n, i ≠ j → ∀ t ≤ n,
    (p i j t = true ↔ (i = nodeOf n pi t ∧ j = nodeOf n pi (t + 1)))

/-- Objective of `PlacementModel._set_objective`:
`Σ_{(i,j) ∈ trip_idx, t ∈ arc_idx} trip_distance[i, j] · p[i, j, t]`.
`d` is the model's `trip_distance` parameter. -/
def objective (n : ℕ) (d : ℕ → ℕ → ℚ) (p : Assignment) : ℚ :=
  ∑ i ∈ Finset.range (n + 1), ∑ j ∈ (Finset.range (n + 1)).erase i,
    ∑ t ∈ Finset.range (n + 1), d i j * (b2n (p i j t) : ℚ)

/-- Total distance of the closed walk of `π`: the sum of the distances of
its `n + 1` arcs. -/
def walkDist (n : ℕ) (d : ℕ → ℕ → ℚ) (pi : Equiv.Perm (Fin n)) : ℚ :=
  ∑ t ∈ Finset.range (n + 1), d (nodeOf n pi t) (nodeOf n pi (t + 1))

/-- The canonical assignment encoding the closed walk of `π`. -/
def walkAssign (n : ℕ) (pi : Equiv.Perm (Fin n)) : Assignment :=
  fun i j t => decide (i = nodeOf n pi t) && decide (j = nodeOf n pi (t + 1)) && decide (t ≤ n)

/-- Pyomo termination conditions, as matched by
`PlacementModel._run_solver` (the four conditions it names, plus a
representative sample of the remaining members of
`pyomo.opt.TerminationCondition` that all fall into its final branch). -/
inductive TerminationCondition
  | optimal
  | infeasible
  | maxTimeLimit
  | feasible
  | unbounded
  | infeasibleOrUnbounded
  | maxIterations
  | userInterrupt
  | internalSolverError
  | unknown
deriving DecidableEq

/-- Rendering of a termination condition, as interpolated into the error
message of `_run_solver`. -/
def TerminationCondition.describe : TerminationCondition → String
  | .optimal => "optimal"
  | .infeasible => "infeasible"
  | .maxTimeLimit => "maxTimeLimit"
  | .feasible => "feasible"
  | .unbounded => "unbounded"
  | .infeasibleOrUnbounded => "infeasibleOrUnbounded"
  | .maxIterations => "maxIterations"
  | .userInterrupt => "userInterrupt"
  | .internalSolverError => "internalSolverError"
  | .unknown => "unknown"

/-- Post-solve status handling of `PlacementModel._run_solver`: the
`if`/`elif` chain on `results.solver.termination_condition`.  The first
three branches only log and fall through (so `run` continues into
`_get_results`); the final branch raises `RuntimeError` with a message
naming the condition. -/
def runSolverCheck (c : TerminationCondition) : Except String Unit :=
  if c = .optimal then Except.ok ()
  else if c = .infeasible then Except.ok ()
  else if c = .maxTimeLimit ∨ c = .feasible then Except.ok ()
  else Except.error ("Solver terminated with unknown termination condition: " ++ c.describe)

/-- C3 counterexample: on `INFEASIBLE` the solver-status handling of
`_run_solver` does not fail; it only logs "Infeasible model." and returns,
so result extraction proceeds.  This refutes the claim that an
`INFEASIBLE` termination is fatal for the cluster. -/
theorem C3_counterexample : runSolverCheck TerminationCondition.infeasible = Except.ok () := rfl

/-- C3 (amended): after `PlacementModel`'s solve terminates, the run
proceeds to result extraction exactly when the termination condition is
`OPTIMAL`, `INFEASIBLE`, `TIME_LIMIT` or `FEASIBLE` (so `INFEASIBLE` is
accepted rather than fatal); every other termination condition fails
fatally with an error message that includes the condition. -/
theorem C3_thm : ∀ c : TerminationCondition,
    (runSolverCheck c = Except.ok () ↔
      (c = .optimal ∨ c = .infeasible ∨ c = .maxTimeLimit ∨ c = .feasible)) ∧
    (runSolverCheck c = Except.ok () ∨
      runSolverCheck c =
        Except.error ("Solver terminated with unknown termination condition: " ++ c.describe)) := by
  intro c
  cases c <;> simp [runSolverCheck]

/-- A machine node (`model/objects/components.py`, class `Node`): a feeder
or a placement.  Ids and part types are embedded as naturals, coordinates
as rationals. -/
structure Node where
  id : ℕ
  part_type : ℕ
  x : ℚ
  y : ℚ
deriving DecidableEq

/-- One row of the DataFrame built by `PlacementModel._get_results`, one
selected arc of the solution.  The source emits columns
`[id, x_i, y_i, x_j, y_j, arc_distance, arc_time]` with only the start
node's id, while its consumer `PNPEngine._get_placement_events` reads both
`id_i` and `id_j`; the version of `_get_results` emitting both ids is not
under `src/`, so following the spec ("each carrying: the id of the start
node, the id of the end node, start/end coordinates, arc distance, arc
time") the row carries both ids. -/
structure ArcRow where
  id_i : ℕ
  id_j : ℕ
  x_i : ℚ
  y_i : ℚ
  x_j : ℚ
  y_j : ℚ
  arc_distance : ℚ
  arc_time : ℚ
deriving DecidableEq

/-- The trip keys of `PlacementModel._preprocessing` in insertion order:
`trips_feeder_to_placement` (`(0, p)` for `p = 1..n`), then
`trips_placement_to_feeder` (`(p, 0)`), then
`trips_placement_to_placement` (`(p1+1, p2+1)` for `p1, p2 ∈ range n`,
`p1 ≠ p2`, row major).  `trip_idx` preserves this insertion order, and
`_get_results` iterates `p_results` in it. -/
def tripList (n : ℕ) : List (ℕ × ℕ) :=
  ((List.range n).map fun k => (0, k + 1)) ++
  ((List.range n).map fun k => (k + 1, 0)) ++
  ((List.range n).flatMap fun p1 =>
    ((List.range n).filter fun p2 => p1 != p2).map fun p2 => (p1 + 1, p2 + 1))

/-- The row `_get_results` builds for a selected arc `(i, j)`: node 0
resolves to the feeder, node `k ≥ 1` to `placements[k - 1]`;
`arc_distance` is `trip_distance[i, j]` and
`arc_time = arc_distance / machine_speed + machine_align_time +
machine_place_time`. -/
def rowOf (feeder : Node) (placements : List Node) (d : ℕ → ℕ → ℚ)
    (speed align place : ℚ) (i j : ℕ) : ArcRow :=
  let nodeI := if i = 0 then feeder else placements.getD (i - 1) feeder
  let nodeJ := if j = 0 then feeder else placements.getD (j - 1) feeder
  { id_i := nodeI.id
    id_j := nodeJ.id
    x_i := nodeI.x
    y_i := nodeI.y
    x_j := nodeJ.x
    y_j := nodeJ.y
    arc_distance := d i j
    arc_time := d i j / speed + align + place }

/-- `PlacementModel._get_results`: iterate
`p_results = {(i, j, t): value(p[i, j, t]) for i, j in trip_idx for t in
arc_idx}` in dict insertion order (trips outer, steps inner), skip zero
entries, and emit one row per selected `(i, j, t)`. -/
def getResults (feeder : Node) (placements : List Node) (d : ℕ → ℕ → ℚ)
    (speed align place : ℚ) (p : Assignment) : List ArcRow :=
  (tripList placements.length).flatMap fun ij =>
    (List.range (placements.length + 1)).filterMap fun t =>
      if p ij.1 ij.2 t then some (rowOf feeder placements d speed align place ij.1 ij.2) else none

/-- C4: every row reported by `_get_results` — the final return-to-feeder
arc included — carries
`arc_time = arc_distance / travel_speed + vision_align_time + place_time`. -/
theorem C4_thm (feeder : Node) (placements : List Node) (d : ℕ → ℕ → ℚ)
    (speed align place : ℚ) (p : Assignment) :
    ∀ row ∈ getResults feeder placements d speed align place p,
      row.arc_time = row.arc_distance / speed + align + place := by
  intro row hrow
  simp only [getResults, List.mem_flatMap, List.mem_filterMap] at hrow
  obtain ⟨ij, -, t, -, hrow⟩ := hrow
  by_cases h : p ij.1 ij.2 t = true
  · rw [if_pos h] at hrow
    cases hrow
    rfl
  · rw [if_neg h] at hrow
    cases hrow

/-- Example feeder: id 10, part type 5, at the origin. -/
def feederEx : Node := ⟨10, 5, 0, 0⟩

/-- Example single-placement cluster. -/
def placementsEx1 : List Node := [⟨1, 5, 3, 4⟩]

/-- Example two-placement cluster (ids 1 and 2). -/
def placementsEx2 : List Node := [⟨1, 5, 1, 0⟩, ⟨2, 5, 0, 1⟩]

/-- Example trip-distance map. -/
def dEx : ℕ → ℕ → ℚ := fun _ _ => 5

/-- Solution assignment for the single-placement cluster: the walk
`feeder → placement 1 → feeder` (arc `(0,1)` at step 0, arc `(1,0)` at
step 1). -/
def pEx1 : Assignment := fun i j t =>
  (i == 0 && j == 1 && t == 0) || (i == 1 && j == 0 && t == 1)

/-- Solution assignment for the two-placement cluster: the walk
`feeder → placement 1 → placement 2 → feeder` (arcs `(0,1)` at step 0,
`(1,2)` at step 1, `(2,0)` at step 2). -/
def pEx2 : Assignment := fun i j t =>
  (i == 0 && j == 1 && t == 0) || (i == 1 && j == 2 && t == 1) || (i == 2 && j == 0 && t == 2)

/-- The first row of `getResults` on the single-placement example. -/
def rowEx : ArcRow := rowOf feederEx placementsEx1 dEx 100 (1/5) (1/2) 0 1

/-- C4 witness: on the concrete single-placement solution, the reported
first row obeys the arc-time formula. -/
theorem C4_witness :
    rowEx ∈ getResults feederEx placementsEx1 dEx 100 (1/5) (1/2) pEx1 ∧
      rowEx.arc_time = rowEx.arc_distance / 100 + 1/5 + 1/2 :=
  have hm : rowEx ∈ getResults feederEx placementsEx1 dEx 100 (1/5) (1/2) pEx1 :=
    List.mem_cons_self _ _
  ⟨hm, C4_thm feederEx placementsEx1 dEx 100 (1/5) (1/2) pEx1 rowEx hm⟩

/-- C5: on the two-placement cluster the assignment `pEx2` is a genuine
solution of the constraint system (walk `f → 1 → 2 → f`), yet
`_get_results` emits its three rows in trip-dictionary order — the
feeder→placement arc, then the placement→feeder arc traversed at step 2,
then the placement→placement arc traversed at step 1 — not in time order:
the return-to-feeder arc comes second, not last. -/
theorem C5_thm :
    satisfiesModel 2 pEx2 ∧
      (getResults feederEx placementsEx2 dEx 100 (1/5) (1/2) pEx2).map
          (fun r => (r.id_i, r.id_j)) = [(10, 1), (2, 10), (1, 2)] := by
  constructor
  · decide
  · decide

/-- Machine parameters (`model/objects/components.py`, class `Machine`). -/
structure Machine where
  head_count : ℕ
  head_capacity : ℕ
  travel_speed : ℚ
  pick_time : ℚ
  place_time : ℚ
  vision_align_time : ℚ
  pcb_changeover_time : ℚ
deriving DecidableEq

/-- A `Job` (`model/objects/components.py`) in the state reached after its
constructor and `calculate_distances`: `feeders` is already sorted by
ascending `x` (the constructor sorts it), and the three pairwise distance
dicts are embedded as functions from node ids.  (The shapely geometry
check `_validate_points` ran at construction; it delegates to an external
library and none of the claims below depends on its internals.) -/
structure Job where
  job_id : ℕ
  machine : Machine
  feeders : List Node
  placements : List Node
  feeder_placement_distances : ℕ → ℕ → ℚ
  feeder_feeder_distances : ℕ → ℕ → ℚ
  placement_placement_distances : ℕ → ℕ → ℚ

/-- Python `list.sort(key=...)`: a stable ascending sort by key.  Embedded
as insertion sort with relation `key a ≤ key b`, which is sorted and
stable — the two properties that determine `list.sort`'s output
uniquely. -/
def sortByKey {α : Type} (key : α → ℚ) (l : List α) : List α :=
  l.insertionSort fun a b => key a ≤ key b

/-- Fuel-driven chunking; the fuel is an upper bound on the list length
(the middle case is unreachable whenever the fuel dominates the length). -/
def chunkListAux {α : Type} (cap : ℕ) : ℕ → List α → List (List α)
  | _, [] => []
  | 0, x :: xs => [x :: xs]
  | fuel + 1, x :: xs => (x :: xs.take (cap - 1)) :: chunkListAux cap fuel (xs.drop (cap - 1))

/-- Python slicing
`[lst[i : i + cap] for i in range(0, len(lst), cap)]` for `cap ≥ 1`:
consecutive chunks of size `cap`, the last chunk possibly shorter. -/
def chunkList {α : Type} (cap : ℕ) (l : List α) : List (List α) :=
  chunkListAux cap l.length l

/-- The loop body of `Job.cluster_placements` for one feeder: take the
placements of that feeder's part type (the source additionally filters on
the `clustered_placements` list, which is never appended to, so that
filter excludes nothing and is dropped), sort them by ascending
feeder→placement distance with Python's stable `list.sort`, slice into
chunks of `head_capacity`, and store the chunks under the feeder's part
type. -/
def clusterStep (job : Job) (acc : ℕ → List (List Node)) (feeder : Node) :
    ℕ → List (List Node) :=
  let pfs := job.placements.filter fun pl => pl.part_type == feeder.part_type
  let sorted := sortByKey (fun pl => job.feeder_placement_distances feeder.id pl.id) pfs
  let clusters := chunkList job.machine.head_capacity sorted
  fun pt => if pt = feeder.part_type then clusters else acc pt

/-- The cluster list `cluster_placements` computes for one feeder. -/
def feederClusters (job : Job) (feeder : Node) : List (List Node) :=
  chunkList job.machine.head_capacity
    (sortByKey (fun pl => job.feeder_placement_distances feeder.id pl.id)
      (job.placements.filter fun pl => pl.part_type == feeder.part_type))

/-- `Job.cluster_placements`: initialise `clusters_by_part_type` with an
empty list for every placement part type, then run `clusterStep` for each
feeder, left to right.  The result models the dict: part types never
assigned keep the initial empty list. -/
def clusterPlacements (job : Job) : ℕ → List (List Node) :=
  job.feeders.foldl (clusterStep job) (fun _ => [])

lemma sortByKey_perm {α : Type} (key : α → ℚ) (l : List α) :
    (sortByKey key l).Perm l :=
  List.perm_insertionSort _ l

lemma sortByKey_sorted {α : Type} (key : α → ℚ) (l : List α) :
    (sortByKey key l).Sorted fun a b => key a ≤ key b := by
  haveI : IsTotal α fun a b => key a ≤ key b := ⟨fun a b => le_total _ _⟩
  haveI : IsTrans α fun a b => key a ≤ key b := ⟨fun _ _ _ hab hbc => le_trans hab hbc⟩
  exact List.sorted_insertionSort _ l

lemma filter_orderedInsert {α : Type} (key : α → ℚ) (q : ℚ) (x : α) (l : List α) :
    ((l.orderedInsert (fun a b => key a ≤ key b) x).filter fun y => decide (key y = q)) =
      if key x = q then x :: (l.filter fun y => decide (key y = q))
      else l.filter fun y => decide (key y = q) := by
  induction l with
  | nil =>
    by_cases h : key x = q <;>
      simp [List.orderedInsert, List.filter_cons, h]
  | cons a l ih =>
    simp only [List.orderedInsert]
    by_cases hxa : key x ≤ key a
    · rw [if_pos hxa]
      by_cases h : key x = q <;>
        simp [List.filter_cons, h]
    · rw [if_neg hxa]
      by_cases h : key x = q
      · have ha : ¬(key a = q) := fun hq => hxa (le_of_eq (h.trans hq.symm))
        simp [List.filter_cons, ha, ih, h]
      · by_cases ha : key a = q <;> simp [List.filter_cons, ha, ih, h]

/-- Stability of `sortByKey`: the elements sharing any fixed key value
appear in the sorted output in their original relative order. -/
lemma sortByKey_filter_eq {α : Type} (key : α → ℚ) (q : ℚ) (l : List α) :
    ((sortByKey key l).filter fun y => decide (key y = q)) =
      l.filter fun y => decide (key y = q) := by
  induction l with
  | nil => rfl
  | cons a l ih =>
    show ((List.orderedInsert _ a (sortByKey key l)).filter _) = _
    rw [filter_orderedInsert]
    by_cases h : key a = q <;> simp [List.filter, h, ih]

lemma chunkListAux_flatten {α : Type} (cap : ℕ) :
    ∀ (fuel : ℕ) (l : List α), l.length ≤ fuel → (chunkListAux cap fuel l).flatten = l := by
  intro fuel
  induction fuel with
  | zero =>
    intro l hl
    match l, hl with
    | [], _ => rfl
  | succ fuel ih =>
    intro l hl
    match l with
    | [] => rfl
    | x :: xs =>
      have hrec : (xs.drop (cap - 1)).length ≤ fuel := by
        have h1 := List.length_drop (cap - 1) xs
        have h2 : xs.length ≤ fuel := by simpa using hl
        omega
      simp only [chunkListAux, List.flatten_cons, ih _ hrec]
      simp [List.take_append_drop]

lemma chunkListAux_sizes {α : Type} (cap : ℕ) (hcap : 1 ≤ cap) :
    ∀ (fuel : ℕ) (l : List α), l.length ≤ fuel → ∀ c ∈ chunkListAux cap fuel l,
      c ≠ [] ∧ c.length ≤ cap := by
  intro fuel
  induction fuel with
  | zero =>
    intro l hl c hc
    match l, hl, hc with
    | [], _, hc => exact absurd hc (by simp [chunkListAux])
  | succ fuel ih =>
    intro l hl c hc
    match l, hc with
    | [] , hc => exact absurd hc (by simp [chunkListAux])
    | x :: xs, hc =>
      have hrec : (xs.drop (cap - 1)).length ≤ fuel := by
        have h1 := List.length_drop (cap - 1) xs
        have h2 : xs.length ≤ fuel := by simpa using hl
        omega
      rcases (by simpa [chunkListAux] using hc :
          c = x :: xs.take (cap - 1) ∨ c ∈ chunkListAux cap fuel (xs.drop (cap - 1))) with h | h
      · subst h
        refine ⟨by simp, ?_⟩
        have := List.length_take (cap - 1) xs
        simp only [List.length_cons]
        omega
      · exact ih _ hrec _ h

lemma chunkListAux_ne_nil {α : Type} (cap fuel : ℕ) (x : α) (xs : List α) :
    chunkListAux cap fuel (x :: xs) ≠ [] := by
  cases fuel <;> simp [chunkListAux]

lemma chunkListAux_dropLast {α : Type} (cap : ℕ) (hcap : 1 ≤ cap) :
    ∀ (fuel : ℕ) (l : List α), l.length ≤ fuel →
      ∀ c ∈ (chunkListAux cap fuel l).dropLast, c.length = cap := by
  intro fuel
  induction fuel with
  | zero =>
    intro l hl c hc
    match l, hl, hc with
    | [], _, hc => exact absurd hc (by simp [chunkListAux])
  | succ fuel ih =>
    intro l hl c hc
    match l, hc with
    | [], hc => exact absurd hc (by simp [chunkListAux])
    | x :: xs, hc =>
      have hxs : xs.length ≤ fuel := by simpa using hl
      have hrec : (xs.drop (cap - 1)).length ≤ fuel := by
        have := List.length_drop (cap - 1) xs
        omega
      simp only [chunkListAux] at hc
      by_cases hemp : xs.drop (cap - 1) = []
      · rw [hemp] at hc
        simp [chunkListAux] at hc
      · obtain ⟨y, ys, hys⟩ := List.exists_cons_of_ne_nil hemp
        rw [hys] at hc
        rw [List.dropLast_cons_of_ne_nil (chunkListAux_ne_nil cap fuel y ys)] at hc
        rcases List.mem_cons.mp hc with rfl | hc2
        · have hlong : cap - 1 < xs.length := by
            by_contra hcon
            exact hemp (List.drop_eq_nil_of_le (by omega))
          have := List.length_take (cap - 1) xs
          simp only [List.length_cons]
          omega
        · rw [← hys] at hc2
          exact ih _ hrec _ hc2

lemma chunkList_flatten {α : Type} (cap : ℕ) (l : List α) :
    (chunkList cap l).flatten = l :=
  chunkListAux_flatten cap l.length l le_rfl

lemma chunkList_sizes {α : Type} (cap : ℕ) (hcap : 1 ≤ cap) (l : List α) :
    ∀ c ∈ chunkList cap l, c ≠ [] ∧ c.length ≤ cap :=
  chunkListAux_sizes cap hcap l.length l le_rfl

lemma chunkList_dropLast {α : Type} (cap : ℕ) (hcap : 1 ≤ cap) (l : List α) :
    ∀ c ∈ (chunkList cap l).dropLast, c.length = cap :=
  chunkListAux_dropLast cap hcap l.length l le_rfl

lemma foldl_clusterStep_not_mem (job : Job) :
    ∀ (fs : List Node) (acc : ℕ → List (List Node)) (pt : ℕ),
      pt ∉ fs.map Node.part_type → fs.foldl (clusterStep job) acc pt = acc pt := by
  intro fs
  induction fs with
  | nil =>
    intro acc pt _
    rfl
  | cons g fs ih =>
    intro acc pt hpt
    simp only [List.map_cons, List.mem_cons, not_or] at hpt
    rw [List.foldl_cons, ih _ _ hpt.2]
    simp [clusterStep, hpt.1]

lemma foldl_clusterStep_mem (job : Job) :
    ∀ (fs : List Node) (acc : ℕ → List (List Node)) (feeder : Node),
      feeder ∈ fs → (fs.map Node.part_type).Nodup →
      fs.foldl (clusterStep job) acc feeder.part_type = feederClusters job feeder := by
  intro fs
  induction fs with
  | nil =>
    intro acc feeder h _
    exact absurd h (List.not_mem_nil _)
  | cons g fs ih =>
    intro acc feeder hmem hnd
    have hnd2 : g.part_type ∉ fs.map Node.part_type ∧ (fs.map Node.part_type).Nodup := by
      rw [List.map_cons, List.nodup_cons] at hnd
      exact hnd
    rw [List.foldl_cons]
    rcases List.mem_cons.mp hmem with rfl | hmem2
    · rw [foldl_clusterStep_not_mem job fs _ _ hnd2.1]
      simp [clusterStep, feederClusters]
    · exact ih _ _ hmem2 hnd2.2

lemma clusterPlacements_eq_feederClusters (job : Job) (feeder : Node)
    (hf : feeder ∈ job.feeders) (hnd : (job.feeders.map Node.part_type).Nodup) :
    clusterPlacements job feeder.part_type = feederClusters job feeder :=
  foldl_clusterStep_mem job job.feeders _ feeder hf hnd

/-- The feeder of the C2 example: part type 5 at the origin. -/
def feederC2 : Node := ⟨0, 5, 0, 0⟩

/-- C2 example placement listed first in the input, with the larger id. -/
def pC2a : Node := ⟨2, 5, 4, 3⟩

/-- C2 example placement listed second in the input, with the smaller id;
both placements are at Euclidean distance 5 from the feeder. -/
def pC2b : Node := ⟨1, 5, 3, 4⟩

/-- The C2 example job: one feeder, two equidistant placements of its part
type given in decreasing-id order, head capacity 2. -/
def jobC2 : Job :=
  { job_id := 0
    machine := ⟨1, 2, 100, 1, 1, 1, 5⟩
    feeders := [feederC2]
    placements := [pC2a, pC2b]
    feeder_placement_distances := fun _ _ => 5
    feeder_feeder_distances := fun _ _ => 0
    placement_placement_distances := fun _ _ => 0 }

/-- C2 counterexample: with two placements of the feeder's part type at
equal feeder→placement distance, listed in the input in decreasing-id
order, `cluster_placements` keeps the input order (Python's `list.sort`
is stable), so the emitted cluster is `[id 2, id 1]` — not the
ascending-id order the claim's tie-break rule requires. -/
theorem C2_counterexample :
    clusterPlacements jobC2 5 = [[pC2a, pC2b]] ∧ pC2b.id < pC2a.id :=
  ⟨by decide, by decide⟩

/-- C2 (amended): for every feeder of a Job with distances computed (with
the validated one-to-one feeder/part-type mapping and `head_capacity ≥ 1`),
`cluster_placements` emits for that feeder's part type a list of clusters
whose concatenation is a permutation of the placements of that part type,
sorted by ascending feeder→placement distance, with ties on equal
distance broken by the placements' original input order (stable sort) —
not by ascending placement id; every cluster is non-empty of size at most
`head_capacity`, all clusters but possibly the last have size exactly
`head_capacity` (consecutive slicing), and every cluster holds only
placements of the feeder's part type. -/
theorem C2_thm (job : Job) (feeder : Node)
    (hf : feeder ∈ job.feeders)
    (hnd : (job.feeders.map Node.part_type).Nodup)
    (hcap : 1 ≤ job.machine.head_capacity) :
    (clusterPlacements job feeder.part_type).flatten.Perm
        (job.placements.filter fun pl => pl.part_type == feeder.part_type) ∧
    (clusterPlacements job feeder.part_type).flatten.Sorted
        (fun a b => job.feeder_placement_distances feeder.id a.id ≤
          job.feeder_placement_distances feeder.id b.id) ∧
    (∀ q : ℚ,
      ((clusterPlacements job feeder.part_type).flatten.filter
          fun pl => decide (job.feeder_placement_distances feeder.id pl.id = q)) =
        ((job.placements.filter fun pl => pl.part_type == feeder.part_type).filter
          fun pl => decide (job.feeder_placement_distances feeder.id pl.id = q))) ∧
    (∀ c ∈ clusterPlacements job feeder.part_type,
      c ≠ [] ∧ c.length ≤ job.machine.head_capacity) ∧
    (∀ c ∈ (clusterPlacements job feeder.part_type).dropLast,
      c.length = job.machine.head_capacity) ∧
    (∀ c ∈ clusterPlacements job feeder.part_type, ∀ pl ∈ c,
      pl.part_type = feeder.part_type) := by
  have heq := clusterPlacements_eq_feederClusters job feeder hf hnd
  rw [heq]
  have hflat : (feederClusters job feeder).flatten =
      sortByKey (fun pl => job.feeder_placement_distances feeder.id pl.id)
        (job.placements.filter fun pl => pl.part_type == feeder.part_type) :=
    chunkList_flatten _ _
  refine ⟨?_, ?_, ?_, ?_, ?_, ?_⟩
  · rw [hflat]
    exact sortByKey_perm _ _
  · rw [hflat]
    exact sortByKey_sorted _ _
  · intro q
    rw [hflat]
    exact sortByKey_filter_eq _ q _
  · exact chunkList_sizes _ hcap _
  · exact chunkList_dropLast _ hcap _
  · intro c hc pl hpl
    have hm : pl ∈ (feederClusters job feeder).flatten :=
      List.mem_flatten.mpr ⟨c, hc, hpl⟩
    rw [hflat] at hm
    have hm2 : pl ∈ job.placements.filter fun pl => pl.part_type == feeder.part_type :=
      (sortByKey_perm _ _).mem_iff.mp hm
    simpa using (List.mem_filter.mp hm2).2

/-- C2 witness: the amended theorem applies to the concrete example job,
giving in particular that the emitted cluster list concatenates to a
permutation of the part-type-5 placements. -/
theorem C2_witness :
    (feederC2 ∈ jobC2.feeders ∧ (jobC2.feeders.map Node.part_type).Nodup ∧
      1 ≤ jobC2.machine.head_capacity) ∧
    (clusterPlacements jobC2 feederC2.part_type).flatten.Perm
      (jobC2.placements.filter fun pl => pl.part_type == feederC2.part_type) :=
  ⟨⟨by decide, by decide, by decide⟩,
    (C2_thm jobC2 feederC2 (by decide) (by decide) (by decide)).1⟩

/-- The set of trips selected at step `t`: ordered pairs of distinct
nodes in `0..n` whose variable is 1 at step `t`. -/
def arcsSet (n : ℕ) (p : Assignment) (t : ℕ) : Finset (ℕ × ℕ) :=
  ((Finset.range (n + 1)) ×ˢ (Finset.range (n + 1))).filter
    fun ij => ij.1 ≠ ij.2 ∧ p ij.1 ij.2 t = true

lemma sum_b2n_eq_card (s : Finset ℕ) (f : ℕ → Bool) :
    (∑ i ∈ s, b2n (f i)) = (s.filter fun i => f i = true).card := by
  rw [Finset.card_filter]
  refine Finset.sum_congr rfl fun i _ => ?_
  by_cases h : f i <;> simp [b2n, h]

lemma arrivals_eq_card (n : ℕ) (p : Assignment) (v t : ℕ) :
    arrivals n p v t =
      (((Finset.range (n + 1)).erase v).filter fun i => p i v t = true).card :=
  sum_b2n_eq_card _ _

lemma departures_eq_card (n : ℕ) (p : Assignment) (v t : ℕ) :
    departures n p v t =
      (((Finset.range (n + 1)).erase v).filter fun j => p v j t = true).card :=
  sum_b2n_eq_card _ _

lemma arcsAt_eq_card (n : ℕ) (p : Assignment) (t : ℕ) :
    arcsAt n p t = (arcsSet n p t).card := by
  unfold arcsAt arcsSet
  rw [Finset.card_filter, Finset.sum_product]
  refine Finset.sum_congr rfl fun i _ => ?_
  rw [sum_b2n_eq_card, ← Finset.card_filter]
  congr 1
  ext j
  simp only [Finset.mem_filter, Finset.mem_erase, Finset.mem_range]
  constructor
  · rintro ⟨⟨hji, hjr⟩, hp⟩
    exact ⟨hjr, Ne.symm hji, hp⟩
  · rintro ⟨hjr, hij, hp⟩
    exact ⟨⟨Ne.symm hij, hjr⟩, hp⟩

lemma nodeOf_le (n : ℕ) (pi : Equiv.Perm (Fin n)) (t : ℕ) : nodeOf n pi t ≤ n := by
  unfold nodeOf
  split
  · exact Nat.succ_le_of_lt (pi _).isLt
  · exact Nat.zero_le n

lemma nodeOf_zero (n : ℕ) (pi : Equiv.Perm (Fin n)) : nodeOf n pi 0 = 0 := by
  simp [nodeOf]

lemma nodeOf_top (n : ℕ) (pi : Equiv.Perm (Fin n)) : nodeOf n pi (n + 1) = 0 := by
  have h : ¬(1 ≤ n + 1 ∧ n + 1 ≤ n) := by omega
  simp [nodeOf, h]

lemma nodeOf_interior (n : ℕ) (pi : Equiv.Perm (Fin n)) (t : ℕ)
    (ht1 : 1 ≤ t) (ht2 : t ≤ n) :
    nodeOf n pi t = (pi ⟨t - 1, by omega⟩).val + 1 := by
  rw [nodeOf, dif_pos ⟨ht1, ht2⟩]

lemma nodeOf_pos (n : ℕ) (pi : Equiv.Perm (Fin n)) (t : ℕ)
    (ht1 : 1 ≤ t) (ht2 : t ≤ n) : 1 ≤ nodeOf n pi t := by
  rw [nodeOf_interior n pi t ht1 ht2]
  omega

lemma nodeOf_inj (n : ℕ) (pi : Equiv.Perm (Fin n)) (s t : ℕ)
    (hs1 : 1 ≤ s) (hs2 : s ≤ n) (ht1 : 1 ≤ t) (ht2 : t ≤ n)
    (h : nodeOf n pi s = nodeOf n pi t) : s = t := by
  rw [nodeOf_interior n pi s hs1 hs2, nodeOf_interior n pi t ht1 ht2] at h
  have h2 : pi ⟨s - 1, by omega⟩ = pi ⟨t - 1, by omega⟩ := by
    apply Fin.ext
    omega
  have h3 := pi.injective h2
  have h4 : s - 1 = t - 1 := by
    have h5 := congrArg Fin.val h3
    simpa using h5
  omega

lemma nodeOf_consec_ne (n : ℕ) (pi : Equiv.Perm (Fin n)) (t : ℕ)
    (hn : 1 ≤ n) (ht : t ≤ n) : nodeOf n pi t ≠ nodeOf n pi (t + 1) := by
  rcases Nat.eq_zero_or_pos t with rfl | htpos
  · rw [nodeOf_zero]
    have h1 := nodeOf_pos n pi (0 + 1) (by omega) (by omega)
    omega
  · rcases Nat.lt_or_ge t n with hlt | hge
    · intro h
      have := nodeOf_inj n pi t (t + 1) htpos ht (by omega) (by omega) h
      omega
    · have hteq : t = n := le_antisymm ht hge
      subst hteq
      rw [nodeOf_top]
      have h1 := nodeOf_pos t pi t hn le_rfl
      omega

lemma nodeOf_eq_iff (n : ℕ) (pi : Equiv.Perm (Fin n)) (v : ℕ)
    (hv1 : 1 ≤ v) (hv2 : v ≤ n) (t : ℕ) :
    nodeOf n pi t = v ↔ t = (pi.symm ⟨v - 1, by omega⟩).val + 1 := by
  constructor
  · intro h
    by_cases ht : 1 ≤ t ∧ t ≤ n
    · rw [nodeOf_interior n pi t ht.1 ht.2] at h
      have h2 : pi ⟨t - 1, by omega⟩ = ⟨v - 1, by omega⟩ := by
        apply Fin.ext
        simp only
        omega
      have h3 : (⟨t - 1, by omega⟩ : Fin n) = pi.symm ⟨v - 1, by omega⟩ := by
        rw [← h2, Equiv.symm_apply_apply]
      have h4 := congrArg Fin.val h3
      simp only at h4
      omega
    · rw [nodeOf, dif_neg ht] at h
      omega
  · intro h
    subst h
    set s : Fin n := pi.symm ⟨v - 1, by omega⟩ with hs
    have hlt : s.val < n := s.isLt
    rw [nodeOf_interior n pi (s.val + 1) (by omega) (by omega)]
    have h3 : (⟨s.val + 1 - 1, by omega⟩ : Fin n) = s := by
      apply Fin.ext
      simp
    rw [h3, hs, Equiv.apply_symm_apply]
    show v - 1 + 1 = v
    omega

lemma card_nodeOf_eq (n : ℕ) (pi : Equiv.Perm (Fin n)) (v : ℕ)
    (hv1 : 1 ≤ v) (hv2 : v ≤ n) :
    ((Finset.range (n + 1)).filter fun t => nodeOf n pi t = v).card = 1 := by
  have hlt : ((pi.symm ⟨v - 1, by omega⟩ : Fin n)).val < n := (pi.symm _).isLt
  have : ((Finset.range (n + 1)).filter fun t => nodeOf n pi t = v) =
      {(pi.symm ⟨v - 1, by omega⟩).val + 1} := by
    ext t
    simp only [Finset.mem_filter, Finset.mem_range, Finset.mem_singleton,
      nodeOf_eq_iff n pi v hv1 hv2 t]
    omega
  rw [this, Finset.card_singleton]

lemma card_nodeOf_succ_eq (n : ℕ) (pi : Equiv.Perm (Fin n)) (v : ℕ)
    (hv1 : 1 ≤ v) (hv2 : v ≤ n) :
    ((Finset.range (n + 1)).filter fun t => nodeOf n pi (t + 1) = v).card = 1 := by
  have hlt : ((pi.symm ⟨v - 1, by omega⟩ : Fin n)).val < n := (pi.symm _).isLt
  have : ((Finset.range (n + 1)).filter fun t => nodeOf n pi (t + 1) = v) =
      {(pi.symm ⟨v - 1, by omega⟩).val} := by
    ext t
    simp only [Finset.mem_filter, Finset.mem_range, Finset.mem_singleton,
      nodeOf_eq_iff n pi v hv1 hv2 (t + 1)]
    omega
  rw [this, Finset.card_singleton]

lemma encodes_arrivals (n : ℕ) (pi : Equiv.Perm (Fin n)) (p : Assignment)
    (hn : 1 ≤ n) (h : encodes n pi p) (v t : ℕ) (hv : v ≤ n) (ht : t ≤ n) :
    arrivals n p v t = if v = nodeOf n pi (t + 1) then 1 else 0 := by
  rw [arrivals_eq_card]
  by_cases hveq : v = nodeOf n pi (t + 1)
  · rw [if_pos hveq]
    have hset : (((Finset.range (n + 1)).erase v).filter fun i => p i v t = true) =
        {nodeOf n pi t} := by
      ext i
      simp only [Finset.mem_filter, Finset.mem_erase, Finset.mem_range, Finset.mem_singleton]
      constructor
      · rintro ⟨⟨hiv, hir⟩, hp⟩
        exact ((h i (by omega) v hv hiv t ht).mp hp).1
      · rintro rfl
        have hne : nodeOf n pi t ≠ v := fun hc =>
          nodeOf_consec_ne n pi t hn ht (hc.trans hveq)
        refine ⟨⟨hne, ?_⟩, ?_⟩
        · have := nodeOf_le n pi t
          omega
        · exact (h (nodeOf n pi t) (nodeOf_le n pi t) v hv hne t ht).mpr ⟨rfl, hveq⟩
    rw [hset, Finset.card_singleton]
  · rw [if_neg hveq]
    rw [Finset.card_eq_zero]
    ext i
    simp only [Finset.mem_filter, Finset.mem_erase, Finset.mem_range, Finset.not_mem_empty,
      iff_false, not_and]
    rintro ⟨hiv, hir⟩ hp
    exact hveq ((h i (by omega) v hv hiv t ht).mp hp).2

lemma encodes_departures (n : ℕ) (pi : Equiv.Perm (Fin n)) (p : Assignment)
    (hn : 1 ≤ n) (h : encodes n pi p) (v t : ℕ) (hv : v ≤ n) (ht : t ≤ n) :
    departures n p v t = if v = nodeOf n pi t then 1 else 0 := by
  rw [departures_eq_card]
  by_cases hveq : v = nodeOf n pi t
  · rw [if_pos hveq]
    have hset : (((Finset.range (n + 1)).erase v).filter fun j => p v j t = true) =
        {nodeOf n pi (t + 1)} := by
      ext j
      simp only [Finset.mem_filter, Finset.mem_erase, Finset.mem_range, Finset.mem_singleton]
      constructor
      · rintro ⟨⟨hjv, hjr⟩, hp⟩
        exact ((h v hv j (by omega) (Ne.symm hjv) t ht).mp hp).2
      · rintro rfl
        have hne : nodeOf n pi (t + 1) ≠ v := fun hc =>
          nodeOf_consec_ne n pi t hn ht (hveq.symm.trans hc.symm)
        refine ⟨⟨hne, ?_⟩, ?_⟩
        · have := nodeOf_le n pi (t + 1)
          omega
        · exact (h v hv (nodeOf n pi (t + 1)) (nodeOf_le n pi (t + 1))
            (Ne.symm hne) t ht).mpr ⟨hveq, rfl⟩
    rw [hset, Finset.card_singleton]
  · rw [if_neg hveq]
    rw [Finset.card_eq_zero]
    ext j
    simp only [Finset.mem_filter, Finset.mem_erase, Finset.mem_range, Finset.not_mem_empty,
      iff_false, not_and]
    rintro ⟨hjv, hjr⟩ hp
    exact hveq ((h v hv j (by omega) (Ne.symm hjv) t ht).mp hp).1

lemma encodes_arcsSet (n : ℕ) (pi : Equiv.Perm (Fin n)) (p : Assignment)
    (hn : 1 ≤ n) (h : encodes n pi p) (t : ℕ) (ht : t ≤ n) :
    arcsSet n p t = {(nodeOf n pi t, nodeOf n pi (t + 1))} := by
  ext ij
  simp only [arcsSet, Finset.mem_filter, Finset.mem_product, Finset.mem_range,
    Finset.mem_singleton]
  constructor
  · rintro ⟨⟨hir, hjr⟩, hij, hp⟩
    have := (h ij.1 (by omega) ij.2 (by omega) hij t ht).mp hp
    rw [Prod.ext_iff]
    exact this
  · rintro rfl
    have h1 := nodeOf_le n pi t
    have h2 := nodeOf_le n pi (t + 1)
    have hne := nodeOf_consec_ne n pi t hn ht
    exact ⟨⟨by omega, by omega⟩, hne,
      (h _ h1 _ h2 hne t ht).mpr ⟨rfl, rfl⟩⟩

/-- The easy direction of the walk characterisation: an assignment that
encodes the closed walk of a permutation satisfies every constraint of
the model. -/
lemma encodes_satisfiesModel (n : ℕ) (pi : Equiv.Perm (Fin n)) (p : Assignment)
    (hn : 1 ≤ n) (h : encodes n pi p) : satisfiesModel n p := by
  refine ⟨?_, ?_, ?_, ?_, ?_, ?_, ?_, ?_⟩
  · intro t ht
    rw [arcsAt_eq_card, encodes_arcsSet n pi p hn h t ht, Finset.card_singleton]
  · rw [encodes_departures n pi p hn h 0 0 (by omega) (by omega), nodeOf_zero, if_pos rfl]
  · rw [encodes_arrivals n pi p hn h 0 0 (by omega) (by omega)]
    have := nodeOf_pos n pi (0 + 1) (by omega) (by omega)
    rw [if_neg (by omega)]
  · rw [encodes_arrivals n pi p hn h 0 n (by omega) le_rfl, nodeOf_top, if_pos rfl]
  · rw [encodes_departures n pi p hn h 0 n (by omega) le_rfl]
    have := nodeOf_pos n pi n hn le_rfl
    rw [if_neg (by omega)]
  · intro v hv hv1 t ht ht1
    rw [encodes_arrivals n pi p hn h v (t - 1) hv (by omega),
      encodes_departures n pi p hn h v t hv (by omega)]
    have ht2 : t - 1 + 1 = t := by omega
    rw [ht2]
  · intro v hv hv1
    have hsum : (∑ t ∈ Finset.range (n + 1), departures n p v t) =
        ∑ t ∈ Finset.range (n + 1), if nodeOf n pi t = v then 1 else 0 := by
      refine Finset.sum_congr rfl fun t ht => ?_
      rw [encodes_departures n pi p hn h v t hv (by
        have := Finset.mem_range.mp ht
        omega)]
      by_cases hc : v = nodeOf n pi t
      · rw [if_pos hc, if_pos hc.symm]
      · rw [if_neg hc, if_neg fun hcc => hc hcc.symm]
    rw [hsum, ← Finset.card_filter]
    exact card_nodeOf_eq n pi v hv1 hv
  · intro v hv hv1
    have hsum : (∑ t ∈ Finset.range (n + 1), arrivals n p v t) =
        ∑ t ∈ Finset.range (n + 1), if nodeOf n pi (t + 1) = v then 1 else 0 := by
      refine Finset.sum_congr rfl fun t ht => ?_
      rw [encodes_arrivals n pi p hn h v t hv (by
        have := Finset.mem_range.mp ht
        omega)]
      by_cases hc : v = nodeOf n pi (t + 1)
      · rw [if_pos hc, if_pos hc.symm]
      · rw [if_neg hc, if_neg fun hcc => hc hcc.symm]
    rw [hsum, ← Finset.card_filter]
    exact card_nodeOf_succ_eq n pi v hv1 hv

/-- The hard direction of the walk characterisation: every assignment
satisfying the constraint system encodes the closed walk of some
permutation of the placements. -/
lemma satisfies_exists_perm (n : ℕ) (p : Assignment) (hn : 1 ≤ n)
    (hs : satisfiesModel n p) : ∃ pi : Equiv.Perm (Fin n), encodes n pi p := by
  obtain ⟨hsingle, hstart, hnoarr, hend, hnodep, hcont, hdep1, harr1⟩ := hs
  have hex : ∀ t : ℕ, ∃ a : ℕ × ℕ, t ≤ n → arcsSet n p t = {a} := by
    intro t
    by_cases ht : t ≤ n
    · obtain ⟨a, ha⟩ := Finset.card_eq_one.mp
        (by rw [← arcsAt_eq_card]; exact hsingle t ht)
      exact ⟨a, fun _ => ha⟩
    · exact ⟨(0, 0), fun hc => absurd hc ht⟩
  choose arc harc using hex
  have hmem : ∀ t, t ≤ n → arc t ∈ arcsSet n p t := by
    intro t ht
    rw [harc t ht]
    exact Finset.mem_singleton_self _
  have harc_le1 : ∀ t, t ≤ n → (arc t).1 ≤ n := by
    intro t ht
    have h0 := hmem t ht
    simp only [arcsSet, Finset.mem_filter, Finset.mem_product, Finset.mem_range] at h0
    omega
  have harc_le2 : ∀ t, t ≤ n → (arc t).2 ≤ n := by
    intro t ht
    have h0 := hmem t ht
    simp only [arcsSet, Finset.mem_filter, Finset.mem_product, Finset.mem_range] at h0
    omega
  have harc_ne : ∀ t, t ≤ n → (arc t).1 ≠ (arc t).2 := by
    intro t ht
    have h0 := hmem t ht
    simp only [arcsSet, Finset.mem_filter, Finset.mem_product, Finset.mem_range] at h0
    exact h0.2.1
  have harc_p : ∀ t, t ≤ n → p (arc t).1 (arc t).2 t = true := by
    intro t ht
    have h0 := hmem t ht
    simp only [arcsSet, Finset.mem_filter, Finset.mem_product, Finset.mem_range] at h0
    exact h0.2.2
  have hp_iff : ∀ t, t ≤ n → ∀ i j, i ≤ n → j ≤ n → i ≠ j →
      (p i j t = true ↔ (i, j) = arc t) := by
    intro t ht i j hi hj hij
    constructor
    · intro hp
      have hmem2 : (i, j) ∈ arcsSet n p t := by
        simp only [arcsSet, Finset.mem_filter, Finset.mem_product, Finset.mem_range]
        exact ⟨⟨by omega, by omega⟩, hij, hp⟩
      rw [harc t ht] at hmem2
      exact Finset.mem_singleton.mp hmem2
    · intro heq
      have h1 := harc_p t ht
      rw [← heq] at h1
      exact h1
  have harr : ∀ v, v ≤ n → ∀ t, t ≤ n →
      arrivals n p v t = if (arc t).2 = v then 1 else 0 := by
    intro v hv t ht
    rw [arrivals_eq_card]
    by_cases h2 : (arc t).2 = v
    · rw [if_pos h2]
      have hset : (((Finset.range (n + 1)).erase v).filter fun i => p i v t = true) =
          {(arc t).1} := by
        ext i
        simp only [Finset.mem_filter, Finset.mem_erase, Finset.mem_range, Finset.mem_singleton]
        constructor
        · rintro ⟨⟨hiv, hir⟩, hp⟩
          exact congrArg Prod.fst ((hp_iff t ht i v (by omega) hv hiv).mp hp)
        · rintro rfl
          have hne1 : (arc t).1 ≠ v := h2 ▸ harc_ne t ht
          refine ⟨⟨hne1, by have := harc_le1 t ht; omega⟩, ?_⟩
          refine (hp_iff t ht (arc t).1 v (harc_le1 t ht) hv hne1).mpr ?_
          rw [← h2]
      rw [hset, Finset.card_singleton]
    · rw [if_neg h2, Finset.card_eq_zero]
      ext i
      simp only [Finset.mem_filter, Finset.mem_erase, Finset.mem_range,
        Finset.not_mem_empty, iff_false, not_and]
      rintro ⟨hiv, hir⟩ hp
      exact h2 (congrArg Prod.snd ((hp_iff t ht i v (by omega) hv hiv).mp hp)).symm
  have hdep : ∀ v, v ≤ n → ∀ t, t ≤ n →
      departures n p v t = if (arc t).1 = v then 1 else 0 := by
    intro v hv t ht
    rw [departures_eq_card]
    by_cases h2 : (arc t).1 = v
    · rw [if_pos h2]
      have hset : (((Finset.range (n + 1)).erase v).filter fun j => p v j t = true) =
          {(arc t).2} := by
        ext j
        simp only [Finset.mem_filter, Finset.mem_erase, Finset.mem_range, Finset.mem_singleton]
        constructor
        · rintro ⟨⟨hjv, hjr⟩, hp⟩
          exact congrArg Prod.snd ((hp_iff t ht v j hv (by omega) (Ne.symm hjv)).mp hp)
        · rintro rfl
          have hne1 : (arc t).2 ≠ v := fun hc => harc_ne t ht (h2.trans hc.symm)
          refine ⟨⟨hne1, by have := harc_le2 t ht; omega⟩, ?_⟩
          refine (hp_iff t ht v (arc t).2 hv (harc_le2 t ht) (Ne.symm hne1)).mpr ?_
          rw [← h2]
      rw [hset, Finset.card_singleton]
    · rw [if_neg h2, Finset.card_eq_zero]
      ext j
      simp only [Finset.mem_filter, Finset.mem_erase, Finset.mem_range,
        Finset.not_mem_empty, iff_false, not_and]
      rintro ⟨hjv, hjr⟩ hp
      exact h2 (congrArg Prod.fst ((hp_iff t ht v j hv (by omega) (Ne.symm hjv)).mp hp)).symm
  have hstart1 : (arc 0).1 = 0 := by
    have h0 := hstart
    rw [hdep 0 (by omega) 0 (by omega)] at h0
    by_contra hc
    rw [if_neg hc] at h0
    omega
  have hend2 : (arc n).2 = 0 := by
    have h0 := hend
    rw [harr 0 (by omega) n le_rfl] at h0
    by_contra hc
    rw [if_neg hc] at h0
    omega
  have hnodep1 : (arc n).1 ≠ 0 := by
    have h0 := hnodep
    rw [hdep 0 (by omega) n le_rfl] at h0
    intro hc
    rw [if_pos hc] at h0
    omega
  have hdepfib : ∀ v, 1 ≤ v → v ≤ n →
      ((Finset.range (n + 1)).filter fun t => (arc t).1 = v).card = 1 := by
    intro v hv1 hv2
    have h0 := hdep1 v hv2 hv1
    have hsum : (∑ t ∈ Finset.range (n + 1), departures n p v t) =
        ∑ t ∈ Finset.range (n + 1), if (arc t).1 = v then 1 else 0 := by
      refine Finset.sum_congr rfl fun t ht => ?_
      exact hdep v hv2 t (by have := Finset.mem_range.mp ht; omega)
    rw [hsum, ← Finset.card_filter] at h0
    exact h0
  have harrfib : ∀ v, 1 ≤ v → v ≤ n →
      ((Finset.range (n + 1)).filter fun t => (arc t).2 = v).card = 1 := by
    intro v hv1 hv2
    have h0 := harr1 v hv2 hv1
    have hsum : (∑ t ∈ Finset.range (n + 1), arrivals n p v t) =
        ∑ t ∈ Finset.range (n + 1), if (arc t).2 = v then 1 else 0 := by
      refine Finset.sum_congr rfl fun t ht => ?_
      exact harr v hv2 t (by have := Finset.mem_range.mp ht; omega)
    rw [hsum, ← Finset.card_filter] at h0
    exact h0
  have hfibzero : ∀ g : ℕ → ℕ, (∀ t, t ≤ n → g t ≤ n) →
      (∀ v, 1 ≤ v → v ≤ n → ((Finset.range (n + 1)).filter fun t => g t = v).card = 1) →
      ((Finset.range (n + 1)).filter fun t => g t = 0).card = 1 := by
    intro g hgle hgfib
    have htot : (Finset.range (n + 1)).card =
        ∑ v ∈ Finset.range (n + 1),
          ((Finset.range (n + 1)).filter fun t => g t = v).card :=
      Finset.card_eq_sum_card_fiberwise fun t ht => Finset.mem_range.mpr (by
        have h1 := hgle t (by have := Finset.mem_range.mp ht; omega)
        omega)
    have hsplit : ((Finset.range (n + 1)).filter fun t => g t = 0).card +
        (∑ v ∈ (Finset.range (n + 1)).erase 0,
          ((Finset.range (n + 1)).filter fun t => g t = v).card) =
        ∑ v ∈ Finset.range (n + 1),
          ((Finset.range (n + 1)).filter fun t => g t = v).card :=
      @Finset.add_sum_erase ℕ ℕ _ _ (Finset.range (n + 1))
        (fun v => ((Finset.range (n + 1)).filter fun t => g t = v).card) 0
        (Finset.mem_range.mpr (by omega))
    have herase : (∑ v ∈ (Finset.range (n + 1)).erase 0,
        ((Finset.range (n + 1)).filter fun t => g t = v).card) = n := by
      have hone : ∀ v ∈ (Finset.range (n + 1)).erase 0,
          ((Finset.range (n + 1)).filter fun t => g t = v).card = 1 := by
        intro v hvm
        have h1 : v ≠ 0 := Finset.ne_of_mem_erase hvm
        have h2 : v < n + 1 := Finset.mem_range.mp (Finset.mem_of_mem_erase hvm)
        exact hgfib v (by omega) (by omega)
      rw [Finset.sum_congr rfl hone, Finset.sum_const, smul_eq_mul, mul_one,
        Finset.card_erase_of_mem (Finset.mem_range.mpr (by omega)), Finset.card_range]
      omega
    rw [Finset.card_range] at htot
    omega
  have harr_zero : ∀ t, t ≤ n → (arc t).2 = 0 → t = n := by
    intro t ht hc
    have hfib0 := hfibzero (fun t => (arc t).2) harc_le2 harrfib
    have hm1 : t ∈ (Finset.range (n + 1)).filter fun t => (arc t).2 = 0 :=
      Finset.mem_filter.mpr ⟨Finset.mem_range.mpr (by omega), hc⟩
    have hm2 : n ∈ (Finset.range (n + 1)).filter fun t => (arc t).2 = 0 :=
      Finset.mem_filter.mpr ⟨Finset.mem_range.mpr (by omega), hend2⟩
    exact Finset.card_le_one.mp (le_of_eq hfib0) t hm1 n hm2
  have hdep_zero : ∀ t, t ≤ n → (arc t).1 = 0 → t = 0 := by
    intro t ht hc
    have hfib0 := hfibzero (fun t => (arc t).1) harc_le1 hdepfib
    have hm1 : t ∈ (Finset.range (n + 1)).filter fun t => (arc t).1 = 0 :=
      Finset.mem_filter.mpr ⟨Finset.mem_range.mpr (by omega), hc⟩
    have hm2 : 0 ∈ (Finset.range (n + 1)).filter fun t => (arc t).1 = 0 :=
      Finset.mem_filter.mpr ⟨Finset.mem_range.mpr (by omega), hstart1⟩
    exact Finset.card_le_one.mp (le_of_eq hfib0) t hm1 0 hm2
  have harc1_pos : ∀ t, 1 ≤ t → t ≤ n → 1 ≤ (arc t).1 := by
    intro t h1 h2
    by_contra hc
    have h3 : (arc t).1 = 0 := by omega
    have h4 := hdep_zero t h2 h3
    omega
  have harc2_pos : ∀ t, t ≤ n → t ≠ n → 1 ≤ (arc t).2 := by
    intro t h1 h2
    by_contra hc
    have h3 : (arc t).2 = 0 := by omega
    exact h2 (harr_zero t h1 h3)
  have hchain : ∀ t, 1 ≤ t → t ≤ n - 1 → (arc t).1 = (arc (t - 1)).2 := by
    intro t ht1 ht2
    have htn : t ≤ n := by omega
    have hvle : (arc t).1 ≤ n := harc_le1 t htn
    have hvpos : 1 ≤ (arc t).1 := harc1_pos t ht1 htn
    have hc := hcont (arc t).1 hvle hvpos t ht2 ht1
    rw [harr (arc t).1 hvle (t - 1) (by omega), hdep (arc t).1 hvle t htn,
      if_pos rfl] at hc
    by_contra hne
    rw [if_neg fun hcc => hne hcc.symm] at hc
    omega
  have hchain_n : (arc n).1 = (arc (n - 1)).2 := by
    have hble : (arc (n - 1)).2 ≤ n := harc_le2 (n - 1) (by omega)
    have hbpos : 1 ≤ (arc (n - 1)).2 := harc2_pos (n - 1) (by omega) (by omega)
    have hfib := hdepfib (arc (n - 1)).2 hbpos hble
    obtain ⟨s, hsin⟩ : ∃ s, s ∈ (Finset.range (n + 1)).filter
        fun t => (arc t).1 = (arc (n - 1)).2 := by
      obtain ⟨a2, ha2⟩ := Finset.card_eq_one.mp hfib
      exact ⟨a2, ha2 ▸ Finset.mem_singleton_self _⟩
    have hsle : s ≤ n := by
      have h1 := Finset.mem_range.mp (Finset.mem_filter.mp hsin).1
      omega
    have hsb : (arc s).1 = (arc (n - 1)).2 := (Finset.mem_filter.mp hsin).2
    have hspos : 1 ≤ s := by
      by_contra hc
      have h0 : s = 0 := by omega
      rw [h0, hstart1] at hsb
      omega
    by_cases hsn : s = n
    · subst hsn
      exact hsb
    · have hs2 : s ≤ n - 1 := by omega
      have h1 : (arc (s - 1)).2 = (arc (n - 1)).2 := by
        rw [← hchain s hspos hs2]
        exact hsb
      have hfib2 := harrfib (arc (n - 1)).2 hbpos hble
      have hm1 : (s - 1) ∈ (Finset.range (n + 1)).filter
          fun t => (arc t).2 = (arc (n - 1)).2 :=
        Finset.mem_filter.mpr ⟨Finset.mem_range.mpr (by omega), h1⟩
      have hm2 : (n - 1) ∈ (Finset.range (n + 1)).filter
          fun t => (arc t).2 = (arc (n - 1)).2 :=
        Finset.mem_filter.mpr ⟨Finset.mem_range.mpr (by omega), rfl⟩
      have heq := Finset.card_le_one.mp (le_of_eq hfib2) (s - 1) hm1 (n - 1) hm2
      omega
  have hchain_full : ∀ t, 1 ≤ t → t ≤ n → (arc t).1 = (arc (t - 1)).2 := by
    intro t ht1 ht2
    by_cases htn : t = n
    · rw [htn]
      exact hchain_n
    · exact hchain t ht1 (by omega)
  obtain ⟨f, hf_val⟩ : ∃ f : Fin n → Fin n,
      ∀ k, (f k).val = (arc (k.val + 1)).1 - 1 := by
    refine ⟨fun k => ⟨(arc (k.val + 1)).1 - 1, ?_⟩, fun k => rfl⟩
    have h1 := harc_le1 (k.val + 1) (by have := k.isLt; omega)
    have h2 := harc1_pos (k.val + 1) (by omega) (by have := k.isLt; omega)
    omega
  have hfinj : Function.Injective f := by
    intro k k2 hkk
    have p1 := harc1_pos (k.val + 1) (by omega) (by have := k.isLt; omega)
    have p2 := harc1_pos (k2.val + 1) (by omega) (by have := k2.isLt; omega)
    have h1 : (arc (k.val + 1)).1 = (arc (k2.val + 1)).1 := by
      have hval := congrArg Fin.val hkk
      rw [hf_val k, hf_val k2] at hval
      omega
    have hvle : (arc (k.val + 1)).1 ≤ n := harc_le1 _ (by have := k.isLt; omega)
    have hfib := hdepfib (arc (k.val + 1)).1 p1 hvle
    have hm1 : (k.val + 1) ∈ (Finset.range (n + 1)).filter
        fun t => (arc t).1 = (arc (k.val + 1)).1 :=
      Finset.mem_filter.mpr ⟨Finset.mem_range.mpr (by have := k.isLt; omega), rfl⟩
    have hm2 : (k2.val + 1) ∈ (Finset.range (n + 1)).filter
        fun t => (arc t).1 = (arc (k.val + 1)).1 :=
      Finset.mem_filter.mpr ⟨Finset.mem_range.mpr (by have := k2.isLt; omega), h1.symm⟩
    have heq := Finset.card_le_one.mp (le_of_eq hfib) _ hm1 _ hm2
    exact Fin.ext (by omega)
  have main : ∀ pi : Equiv.Perm (Fin n),
      (∀ k : Fin n, (pi k).val = (arc (k.val + 1)).1 - 1) → encodes n pi p := by
    intro pi hpival
    have hnode1 : ∀ t, t ≤ n → nodeOf n pi t = (arc t).1 := by
      intro t ht
      rcases Nat.eq_zero_or_pos t with rfl | htpos
      · rw [nodeOf_zero, hstart1]
      · rw [nodeOf_interior n pi t htpos ht, hpival ⟨t - 1, by omega⟩]
        have h3 : t - 1 + 1 = t := by omega
        rw [h3]
        have h4 := harc1_pos t htpos ht
        omega
    have hnode2 : ∀ t, t ≤ n → nodeOf n pi (t + 1) = (arc t).2 := by
      intro t ht
      by_cases htn : t = n
      · rw [htn, nodeOf_top, hend2]
      · have htlt : t + 1 ≤ n := by omega
        rw [hnode1 (t + 1) htlt, hchain_full (t + 1) (by omega) htlt]
        have h3 : t + 1 - 1 = t := by omega
        rw [h3]
    intro i hi j hj hij t ht
    rw [hp_iff t ht i j hi hj hij, hnode1 t ht, hnode2 t ht]
    constructor
    · intro heq
      exact ⟨congrArg Prod.fst heq, congrArg Prod.snd heq⟩
    · rintro ⟨rfl, rfl⟩
      rfl
  exact ⟨Equiv.ofBijective f (Finite.injective_iff_bijective.mp hfinj),
    main _ fun k => hf_val k⟩

lemma walkAssign_encodes (n : ℕ) (pi : Equiv.Perm (Fin n)) :
    encodes n pi (walkAssign n pi) := by
  intro i hi j hj hij t ht
  simp only [walkAssign, Bool.and_eq_true, decide_eq_true_eq]
  constructor
  · rintro ⟨⟨h1, h2⟩, h3⟩
    exact ⟨h1, h2⟩
  · rintro ⟨h1, h2⟩
    exact ⟨⟨h1, h2⟩, ht⟩

/-- An assignment encoding a walk has objective value equal to the walk's
total distance. -/
lemma encodes_objective (n : ℕ) (d : ℕ → ℕ → ℚ) (pi : Equiv.Perm (Fin n))
    (p : Assignment) (hn : 1 ≤ n) (h : encodes n pi p) :
    objective n d p = walkDist n d pi := by
  unfold objective walkDist
  have hswap : (∑ i ∈ Finset.range (n + 1), ∑ j ∈ (Finset.range (n + 1)).erase i,
      ∑ t ∈ Finset.range (n + 1), d i j * (b2n (p i j t) : ℚ)) =
      ∑ t ∈ Finset.range (n + 1), ∑ i ∈ Finset.range (n + 1),
        ∑ j ∈ (Finset.range (n + 1)).erase i, d i j * (b2n (p i j t) : ℚ) := by
    have h1 : (∑ i ∈ Finset.range (n + 1), ∑ j ∈ (Finset.range (n + 1)).erase i,
        ∑ t ∈ Finset.range (n + 1), d i j * (b2n (p i j t) : ℚ)) =
        ∑ i ∈ Finset.range (n + 1), ∑ t ∈ Finset.range (n + 1),
          ∑ j ∈ (Finset.range (n + 1)).erase i, d i j * (b2n (p i j t) : ℚ) :=
      Finset.sum_congr rfl fun i _ => Finset.sum_comm
    rw [h1]
    exact Finset.sum_comm
  rw [hswap]
  refine Finset.sum_congr rfl fun t htm => ?_
  have ht : t ≤ n := by
    have := Finset.mem_range.mp htm
    omega
  have hn1 := nodeOf_le n pi t
  have hn2 := nodeOf_le n pi (t + 1)
  have hne := nodeOf_consec_ne n pi t hn ht
  rw [Finset.sum_eq_single (nodeOf n pi t)]
  · rw [Finset.sum_eq_single (nodeOf n pi (t + 1))]
    · have hp : p (nodeOf n pi t) (nodeOf n pi (t + 1)) t = true :=
        (h _ hn1 _ hn2 hne t ht).mpr ⟨rfl, rfl⟩
      rw [hp]
      norm_num [b2n]
    · intro j hjm hjne
      have hj : j ≤ n := by
        have := Finset.mem_range.mp (Finset.mem_of_mem_erase hjm)
        omega
      have hij : nodeOf n pi t ≠ j := Ne.symm (Finset.ne_of_mem_erase hjm)
      have hp : p (nodeOf n pi t) j t = false := by
        rw [← Bool.not_eq_true]
        intro hp2
        exact hjne ((h _ hn1 j hj hij t ht).mp hp2).2
      rw [hp]
      norm_num [b2n]
    · intro habs
      exact absurd (Finset.mem_erase.mpr ⟨Ne.symm hne, Finset.mem_range.mpr (by omega)⟩) habs
  · intro i him hine
    refine Finset.sum_eq_zero fun j hjm => ?_
    have hi : i ≤ n := by
      have := Finset.mem_range.mp him
      omega
    have hj : j ≤ n := by
      have := Finset.mem_range.mp (Finset.mem_of_mem_erase hjm)
      omega
    have hij : i ≠ j := Ne.symm (Finset.ne_of_mem_erase hjm)
    have hp : p i j t = false := by
      rw [← Bool.not_eq_true]
      intro hp2
      exact hine ((h i hi j hj hij t ht).mp hp2).1
    rw [hp]
    norm_num [b2n]
  · intro habs
    exact absurd (Finset.mem_range.mpr (by omega : nodeOf n pi t < n + 1)) habs

/-- C1: for every feeder and non-empty cluster of `n` placements with
complete pairwise distances, an assignment of the binary variables
satisfies the `PlacementModel` constraint system exactly when it encodes a
closed walk `feeder → π(1) → … → π(n) → feeder` for some permutation `π`
of the placements; the objective of such an assignment equals the walk's
total distance; consequently the set of objective values of feasible
assignments coincides with the set of walk distances, so the model's
optimum (least feasible objective value) is the minimum-distance closed
walk visiting each placement exactly once. -/
theorem C1_thm (n : ℕ) (d : ℕ → ℕ → ℚ) (hn : 1 ≤ n) :
    (∀ p : Assignment, satisfiesModel n p ↔ ∃ pi : Equiv.Perm (Fin n), encodes n pi p) ∧
    (∀ (p : Assignment) (pi : Equiv.Perm (Fin n)),
      encodes n pi p → objective n d p = walkDist n d pi) ∧
    {c : ℚ | ∃ p : Assignment, satisfiesModel n p ∧ objective n d p = c} =
      {c : ℚ | ∃ pi : Equiv.Perm (Fin n), walkDist n d pi = c} ∧
    (∀ m : ℚ,
      IsLeast {c : ℚ | ∃ p : Assignment, satisfiesModel n p ∧ objective n d p = c} m ↔
        IsLeast {c : ℚ | ∃ pi : Equiv.Perm (Fin n), walkDist n d pi = c} m) := by
  have hiff : ∀ p : Assignment, satisfiesModel n p ↔ ∃ pi, encodes n pi p := fun p =>
    ⟨satisfies_exists_perm n p hn, fun ⟨pi, hpi⟩ => encodes_satisfiesModel n pi p hn hpi⟩
  have hobj : ∀ (p : Assignment) (pi : Equiv.Perm (Fin n)),
      encodes n pi p → objective n d p = walkDist n d pi :=
    fun p pi h => encodes_objective n d pi p hn h
  have hset : {c : ℚ | ∃ p : Assignment, satisfiesModel n p ∧ objective n d p = c} =
      {c : ℚ | ∃ pi : Equiv.Perm (Fin n), walkDist n d pi = c} := by
    ext c
    simp only [Set.mem_setOf_eq]
    constructor
    · rintro ⟨p, hp, hobj2⟩
      obtain ⟨pi, hpi⟩ := (hiff p).mp hp
      exact ⟨pi, by rw [← hobj p pi hpi, hobj2]⟩
    · rintro ⟨pi, hw⟩
      refine ⟨walkAssign n pi, (hiff _).mpr ⟨pi, walkAssign_encodes n pi⟩, ?_⟩
      rw [hobj _ pi (walkAssign_encodes n pi), hw]
  exact ⟨hiff, hobj, hset, fun m => by rw [hset]⟩

/-- C1 witness: the characterisation applies at the concrete size-one
cluster with the example distance map. -/
theorem C1_witness :
    (1 ≤ 1) ∧
      (∀ p : Assignment, satisfiesModel 1 p ↔ ∃ pi : Equiv.Perm (Fin 1), encodes 1 pi p) :=
  ⟨by decide, (C1_thm 1 dEx (by decide)).1⟩

/-- Event kinds.  Modelled from the spec: the `sequence.py` under `src/`
predates `engine.py` (it lacks the `Arc` class and the generic
`travel_event` the engine imports) and still splits travel into four
subkinds; the spec's event model has the four kinds below. -/
inductive EventType
  | PICKUP
  | PLACE
  | TRAVEL
  | CHANGEOVER
deriving DecidableEq

/-- Structured content of an event's `detail` string (the source builds
f-strings such as `pickup_{feeder.id}_{feeder.part_type}`,
`place_{placement.id}_{placement.part_type}`,
`travel_{start.id}_{finish.id}` and
`changover_{prev_unique_id}_{next_unique_id}`; a unique job id is
`"<job_id>-<iteration>"`).  The embedded detail keeps the interpolated
fields instead of the rendered string. -/
inductive Detail
  | pickup (feederId partType : ℕ)
  | place (placementId partType : ℕ)
  | travel (startId finishId : ℕ)
  | changeover (jobPrev iterPrev jobNext iterNext : ℕ)
deriving DecidableEq

/-- A directed move of the head (`Arc` of the spec data model; missing
from the `sequence.py` under `src/`). -/
structure Arc where
  x_i : ℚ
  y_i : ℚ
  x_j : ℚ
  y_j : ℚ
  distance : ℚ
deriving DecidableEq

/-- An event of the emitted schedule.  Modelled from the spec:
`{ kind, detail, time, arc? }`, `arc` present exactly for TRAVEL. -/
structure Event where
  event_type : EventType
  detail : Detail
  time : ℚ
  arc : Option Arc
deriving DecidableEq

/-- `Event.pick_event(feeder, time)`: a PICKUP at the feeder, no arc. -/
def Event.pick_event (feeder : Node) (time : ℚ) : Event :=
  ⟨EventType.PICKUP, Detail.pickup feeder.id feeder.part_type, time, none⟩

/-- `Event.place_event(placement, time)`: a PLACE at the placement, no
arc. -/
def Event.place_event (pl : Node) (time : ℚ) : Event :=
  ⟨EventType.PLACE, Detail.place pl.id pl.part_type, time, none⟩

/-- `Event.travel_event(start, finish, time, arc)`: a TRAVEL carrying its
arc.  Modelled from the spec (absent from the `sequence.py` under
`src/`). -/
def Event.travel_event (start finish : Node) (time : ℚ) (arc : Arc) : Event :=
  ⟨EventType.TRAVEL, Detail.travel start.id finish.id, time, some arc⟩

/-- `Event.changeover_event(prev_unique_id, next_unique_id, time)`: a
CHANGEOVER between two job iterations, no arc. -/
def Event.changeover_event (jobPrev iterPrev jobNext iterNext : ℕ) (time : ℚ) : Event :=
  ⟨EventType.CHANGEOVER, Detail.changeover jobPrev iterPrev jobNext iterNext, time, none⟩

/-- Node lookup of `PNPEngine._get_placement_events`: try
`feeders_by_id.get(node_id)` first, then `placements_by_id[node_id]`; the
returned flag records whether the node was found among the feeders
(`node_is_feeder` in the source).  The id-keyed dicts are built from the
corresponding lists, so lookup is `find?` by id (ids are unique on
validated input). -/
def resolveNode (job : Job) (nid : ℕ) : Option (Node × Bool) :=
  match job.feeders.find? fun f => f.id == nid with
  | some f => some (f, true)
  | none =>
    match job.placements.find? fun pl => pl.id == nid with
    | some pl => some (pl, false)
    | none => none

/-- `PNPEngine._get_placement_events`: for each result row in order, one
TRAVEL event from start node to end node carrying the row's arc and
`arc_time`, followed — when the end node is not a feeder — by one PLACE
event at the end node with `machine.place_time`.  A node id that resolves
to neither a feeder nor a placement is fatal (the source's KeyError /
`ValueError("Node ID ... not found in feeders or placements")`). -/
def getPlacementEvents (job : Job) : List ArcRow → Except String (List Event)
  | [] => Except.ok []
  | row :: rest =>
    match resolveNode job row.id_i, resolveNode job row.id_j with
    | some (ns, _), some (nf, fIsFeeder) => do
      let evs ← getPlacementEvents job rest
      Except.ok (Event.travel_event ns nf row.arc_time
          ⟨row.x_i, row.y_i, row.x_j, row.y_j, row.arc_distance⟩ ::
        (if fIsFeeder then [] else [Event.place_event nf job.machine.place_time]) ++ evs)
    | _, _ => Except.error "Node ID not found in feeders or placements"

/-- The cluster loop body of `PNPEngine._run_job`: for each cluster of the
feeder's part type, in clusterer order, one PICKUP event with
`machine.pick_time`, then the travel/place events of the cluster's routing
solution.  `solver` abstracts `PlacementModel(...).run()` — the spec's
`MipSolver` capability composed with result extraction — mapping the
feeder and cluster to the solved arc rows. -/
def clustersEvents (solver : Node → List Node → List ArcRow) (job : Job)
    (feeder : Node) : List (List Node) → Except String (List Event)
  | [] => Except.ok []
  | cluster :: more => do
    let pevs ← getPlacementEvents job (solver feeder cluster)
    let restEvs ← clustersEvents solver job feeder more
    Except.ok (Event.pick_event feeder job.machine.pick_time :: pevs ++ restEvs)

/-- The feeder-to-feeder TRAVEL event `_run_job` emits between the
previous feeder and the next one: arc carrying the feeder↔feeder
distance, time = distance / `travel_speed`. -/
def ffTravel (job : Job) (a b : Node) : Event :=
  Event.travel_event a b
    (job.feeder_feeder_distances a.id b.id / job.machine.travel_speed)
    ⟨a.x, a.y, b.x, b.y, job.feeder_feeder_distances a.id b.id⟩

/-- The feeder-to-feeder emission guard of `_run_job`:
`if feeder_previous and feeder_previous.id != feeder.id`, one travel
event; otherwise nothing. -/
def ffStep (job : Job) (fp : Option Node) (feeder : Node) : List Event :=
  match fp with
  | some fprev => if fprev.id ≠ feeder.id then [ffTravel job fprev feeder] else []
  | none => []

/-- The feeder loop of `PNPEngine._run_job`: for each feeder left to
right, a feeder-to-feeder TRAVEL when a previous feeder exists and has a
different id (`ffStep`), then the pickup and cluster events;
`feeder_previous` is set to the feeder at the end of each iteration and
the loop returns the final value (the last feeder when the list is
non-empty; the source would fail on an empty feeder list, which validated
inputs exclude). -/
def runJobFeeders (solver : Node → List Node → List ArcRow) (job : Job) :
    List Node → Option Node → Except String (List Event × Option Node)
  | [], fp => Except.ok ([], fp)
  | feeder :: rest, fp => do
    let clusterEvs ← clustersEvents solver job feeder (clusterPlacements job feeder.part_type)
    let (restEvs, fLast) ← runJobFeeders solver job rest (some feeder)
    Except.ok (ffStep job fp feeder ++ clusterEvs ++ restEvs, fLast)

/-- `PNPEngine._run_job` (distances are already fields of the embedded
`Job`, so `calculate_distances` has no separate step here). -/
def runJob (solver : Node → List Node → List ArcRow) (job : Job)
    (feederPrev : Option Node) : Except String (List Event × Option Node) :=
  runJobFeeders solver job job.feeders feederPrev

/-- The repeat loop of `PNPEngine.run`: for iterations `2..quantity`, a
CHANGEOVER from the previous iteration followed by a deep copy of the
iteration-1 trip events (deep copy is identity on immutable values). -/
def iterSeqs (jid : ℕ) (cot : ℚ) (tripEvs : List Event) (quantity : ℕ) :
    List ((ℕ × ℕ) × List Event) :=
  (List.range (quantity - 1)).map fun k =>
    ((jid, k + 2), Event.changeover_event jid (k + 1) jid (k + 2) cot :: tripEvs)

/-- The inter-job CHANGEOVER prefix of `PNPEngine.run`: when a previous
job exists, one CHANGEOVER from its last iteration to this job's first,
timed with this job's `pcb_changeover_time`. -/
def changeoverHead (job : Job) : Option (ℕ × ℕ) → List Event
  | some (prevId, prevIter) =>
    [Event.changeover_event prevId prevIter job.job_id 1 job.machine.pcb_changeover_time]
  | none => []

/-- The job loop of `PNPEngine.run`: the per-iteration sequences keyed by
`(job_id, iteration)` in insertion order.  `prevInfo` is the previous
job's id together with its last iteration number (the source's
`job_iteration` before it is reset), used for the inter-job CHANGEOVER;
`feederLast` is threaded between jobs. -/
def runEngineAux (solver : Node → List Node → List ArcRow) :
    List (Job × ℕ) → Option (ℕ × ℕ) → Option Node →
    Except String (List ((ℕ × ℕ) × List Event))
  | [], _, _ => Except.ok []
  | (job, quantity) :: rest, prevInfo, feederLast => do
    let (tripEvs, feederLast2) ← runJob solver job feederLast
    let restSeqs ← runEngineAux solver rest (some (job.job_id, max quantity 1)) feederLast2
    Except.ok ((((job.job_id, 1), changeoverHead job prevInfo ++ tripEvs) ::
      iterSeqs job.job_id job.machine.pcb_changeover_time tripEvs quantity) ++ restSeqs)

/-- `PNPEngine.run` over the setup's ordered `(job, quantity)` list. -/
def runEngine (solver : Node → List Node → List ArcRow)
    (jobs : List (Job × ℕ)) : Except String (List ((ℕ × ℕ) × List Event)) :=
  runEngineAux solver jobs none none

/-- Checker for the per-cluster event shape: every PLACE event must
immediately follow a TRAVEL event whose finish id is the placed node's id
(`prev` is the preceding event, if any). -/
def placeAfterTravelOk : Option Event → List Event → Bool
  | _, [] => true
  | prev, e :: rest =>
    (match e.detail with
     | Detail.place pid _ =>
       (match prev with
        | some pe =>
          (match pe.detail with
           | Detail.travel _ b => b == pid
           | _ => false)
        | none => false)
     | _ => true) && placeAfterTravelOk (some e) rest

lemma placeAfterTravelOk_travel (prev : Option Event) (s f : Node) (tm : ℚ) (a : Arc)
    (rest : List Event) :
    placeAfterTravelOk prev (Event.travel_event s f tm a :: rest) =
      placeAfterTravelOk (some (Event.travel_event s f tm a)) rest := by
  simp [placeAfterTravelOk, Event.travel_event]

lemma placeAfterTravelOk_place (s f : Node) (tm tm2 : ℚ) (a : Arc)
    (rest : List Event) :
    placeAfterTravelOk (some (Event.travel_event s f tm a))
        (Event.place_event f tm2 :: rest) =
      placeAfterTravelOk (some (Event.place_event f tm2)) rest := by
  simp [placeAfterTravelOk, Event.travel_event, Event.place_event]

lemma resolveNode_id (job : Job) (x : ℕ) (node : Node) (b : Bool)
    (h : resolveNode job x = some (node, b)) : node.id = x := by
  unfold resolveNode at h
  cases hf : job.feeders.find? fun f => f.id == x with
  | some f =>
    rw [hf] at h
    cases h
    simpa using List.find?_some hf
  | none =>
    rw [hf] at h
    cases hp : job.placements.find? fun pl => pl.id == x with
    | some pl =>
      rw [hp] at h
      cases h
      simpa using List.find?_some hp
    | none =>
      rw [hp] at h
      cases h

/-- Shape of the events `_get_placement_events` produces for a list of
rows whose node ids all resolve: one TRAVEL per row, no event of any
other kind except the PLACE events, one PLACE at placement `pl` per row
ending at `pl.id`, and every PLACE immediately following its TRAVEL. -/
lemma getPlacementEvents_spec (job : Job) :
    ∀ rows : List ArcRow,
      (∀ r ∈ rows, (resolveNode job r.id_i).isSome ∧ (resolveNode job r.id_j).isSome) →
      ∃ evs, getPlacementEvents job rows = Except.ok evs ∧
        (evs.countP fun e => decide (e.event_type = EventType.TRAVEL)) = rows.length ∧
        (∀ ty : EventType, ty ≠ EventType.TRAVEL → ty ≠ EventType.PLACE →
          (evs.countP fun e => decide (e.event_type = ty)) = 0) ∧
        (∀ pl : Node, resolveNode job pl.id = some (pl, false) →
          (evs.countP fun e => decide (e = Event.place_event pl job.machine.place_time)) =
            rows.countP fun r => r.id_j == pl.id) ∧
        (∀ prev : Option Event, placeAfterTravelOk prev evs = true) := by
  intro rows
  induction rows with
  | nil =>
    intro _
    refine ⟨[], rfl, rfl, fun ty _ _ => rfl, fun pl _ => rfl, fun prev => rfl⟩
  | cons row rest ih =>
    intro hres
    obtain ⟨evs, hok, hTravel, hOther, hPlace, hAfter⟩ :=
      ih fun r hr => hres r (List.mem_cons_of_mem _ hr)
    obtain ⟨nsb, hns⟩ := Option.isSome_iff_exists.mp (hres row (List.mem_cons_self _ _)).1
    obtain ⟨nfb, hnf⟩ := Option.isSome_iff_exists.mp (hres row (List.mem_cons_self _ _)).2
    obtain ⟨ns, bs⟩ := nsb
    obtain ⟨nf, bf⟩ := nfb
    have hout : getPlacementEvents job (row :: rest) =
        Except.ok (Event.travel_event ns nf row.arc_time
            ⟨row.x_i, row.y_i, row.x_j, row.y_j, row.arc_distance⟩ ::
          (if bf then [] else [Event.place_event nf job.machine.place_time]) ++ evs) := by
      unfold getPlacementEvents
      rw [hns, hnf, hok]
      rfl
    refine ⟨_, hout, ?_, ?_, ?_, ?_⟩
    · cases bf <;>
        simp [List.countP_cons, List.countP_append, hTravel, Event.travel_event,
          Event.place_event, Nat.add_comm]
    · intro ty hty1 hty2
      have h1 : (decide ((Event.travel_event ns nf row.arc_time
          ⟨row.x_i, row.y_i, row.x_j, row.y_j, row.arc_distance⟩).event_type = ty)) = false := by
        simp only [Event.travel_event, decide_eq_false_iff_not]
        exact fun hc => hty1 hc.symm
      have h2 : (decide ((Event.place_event nf job.machine.place_time).event_type = ty)) =
          false := by
        simp only [Event.place_event, decide_eq_false_iff_not]
        exact fun hc => hty2 hc.symm
      have h3 := hOther ty hty1 hty2
      cases bf
      · simp [List.countP_append, List.countP_cons, h1, h2, h3]
      · simp [List.countP_append, List.countP_cons, h1, h2, h3]
    · intro pl hpl
      have hcount := hPlace pl hpl
      have hnotravel :
          (decide (Event.travel_event ns nf row.arc_time
            ⟨row.x_i, row.y_i, row.x_j, row.y_j, row.arc_distance⟩ =
              Event.place_event pl job.machine.place_time)) = false := by
        simp [Event.travel_event, Event.place_event]
      by_cases hid : row.id_j = pl.id
      · have hfr : resolveNode job row.id_j = some (pl, false) := by
          rw [hid]
          exact hpl
        rw [hnf] at hfr
        obtain ⟨h1, h2⟩ : nf = pl ∧ bf = false := by
          have h0 := Option.some.inj hfr
          exact ⟨congrArg Prod.fst h0, congrArg Prod.snd h0⟩
        subst h1
        subst h2
        simp [List.countP_append, List.countP_cons, hnotravel, hcount, hid] <;> omega
      · have hne2 : nf.id ≠ pl.id := by
          have := resolveNode_id job row.id_j nf bf hnf
          omega
        have hnoplace : (decide (Event.place_event nf job.machine.place_time =
            Event.place_event pl job.machine.place_time)) = false := by
          simp only [Event.place_event, decide_eq_false_iff_not]
          intro hc
          injection hc with h1 h2
          injection h2 with h3
          exact hne2 h3
        cases bf <;>
          simp [List.countP_cons, List.countP_append, hnotravel, hnoplace, hcount, hid]
    · intro prev
      cases bf
      · simp only [Bool.false_eq_true, if_false, List.cons_append, List.singleton_append]
        rw [placeAfterTravelOk_travel, placeAfterTravelOk_place]
        exact hAfter _
      · simp only [if_true, List.cons_append, List.nil_append]
        rw [placeAfterTravelOk_travel]
        exact hAfter _

lemma placeAfterTravelOk_pick (prev : Option Event) (f : Node) (tm : ℚ)
    (rest : List Event) :
    placeAfterTravelOk prev (Event.pick_event f tm :: rest) =
      placeAfterTravelOk (some (Event.pick_event f tm)) rest := by
  simp [placeAfterTravelOk, Event.pick_event]

/-- C6: for every cluster processed by the event builder — given node ids
that resolve correctly (one-to-one, feeders before placements, as
validated input guarantees) and a routing solution whose arcs end once at
each placement of the cluster and once at the feeder (C1 established that
every solver solution has this shape) — the emitted events of the cluster
contain exactly one PICKUP, exactly one PLACE per placement of the
cluster, each PLACE immediately following the TRAVEL event whose end node
is that placement, and exactly `|cluster| + 1` TRAVEL events. -/
theorem C6_thm (solver : Node → List Node → List ArcRow) (job : Job)
    (feeder : Node) (cluster : List Node)
    (hresF : resolveNode job feeder.id = some (feeder, true))
    (hresP : ∀ pl ∈ cluster, resolveNode job pl.id = some (pl, false))
    (hnodup : cluster.Nodup)
    (hperm : ((solver feeder cluster).map ArcRow.id_j).Perm
      (cluster.map Node.id ++ [feeder.id]))
    (hresRows : ∀ r ∈ solver feeder cluster,
      (resolveNode job r.id_i).isSome ∧ (resolveNode job r.id_j).isSome) :
    ∃ evs, clustersEvents solver job feeder [cluster] = Except.ok evs ∧
      (evs.countP fun e => decide (e.event_type = EventType.PICKUP)) = 1 ∧
      (evs.countP fun e => decide (e.event_type = EventType.TRAVEL)) = cluster.length + 1 ∧
      (∀ pl ∈ cluster,
        (evs.countP fun e => decide (e = Event.place_event pl job.machine.place_time)) = 1) ∧
      placeAfterTravelOk none evs = true := by
  obtain ⟨pevs, hok, hTravel, hOther, hPlace, hAfter⟩ :=
    getPlacementEvents_spec job (solver feeder cluster) hresRows
  have hout : clustersEvents solver job feeder [cluster] =
      Except.ok (Event.pick_event feeder job.machine.pick_time :: pevs ++ []) := by
    unfold clustersEvents
    rw [hok]
    rfl
  have hlen : (solver feeder cluster).length = cluster.length + 1 := by
    have h1 := hperm.length_eq
    simpa using h1
  refine ⟨_, hout, ?_, ?_, ?_, ?_⟩
  · have hpick : (decide ((Event.pick_event feeder job.machine.pick_time).event_type =
        EventType.PICKUP)) = true := by
      simp [Event.pick_event]
    simp [List.countP_cons, List.countP_append, hpick,
      hOther EventType.PICKUP (by simp) (by simp)]
  · have hpick : (decide ((Event.pick_event feeder job.machine.pick_time).event_type =
        EventType.TRAVEL)) = false := by
      simp [Event.pick_event]
    simp [List.countP_cons, List.countP_append, hpick, hTravel, hlen]
  · intro pl hpl
    have hne : feeder.id ≠ pl.id := by
      intro hc
      have h1 := hresP pl hpl
      rw [← hc, hresF] at h1
      have h2 := congrArg Prod.snd (Option.some.inj h1)
      simp at h2
    have hidinj : ∀ x ∈ cluster, ∀ y ∈ cluster, x.id = y.id → x = y := by
      intro x hx y hy hxy
      have h1 := hresP x hx
      have h2 := hresP y hy
      rw [hxy, h2] at h1
      exact (congrArg Prod.fst (Option.some.inj h1)).symm
    have hmapnodup : (cluster.map Node.id).Nodup := List.Nodup.map_on hidinj hnodup
    have hrows : ((solver feeder cluster).countP fun r => r.id_j == pl.id) = 1 := by
      have h1 : ((solver feeder cluster).countP fun r => r.id_j == pl.id) =
          ((solver feeder cluster).map ArcRow.id_j).countP fun x => x == pl.id := by
        rw [List.countP_map]
        rfl
      rw [h1, hperm.countP_eq, List.countP_append]
      have h2 : ((cluster.map Node.id).countP fun x => x == pl.id) = 1 := by
        have h3 : pl.id ∈ cluster.map Node.id := List.mem_map_of_mem Node.id hpl
        have h4 := List.count_eq_one_of_mem hmapnodup h3
        simpa [List.count] using h4
      have h5 : (([feeder.id]).countP fun x => x == pl.id) = 0 := by
        simp [List.countP_cons]
        exact hne
      omega
    have hnopick : (decide (Event.pick_event feeder job.machine.pick_time =
        Event.place_event pl job.machine.place_time)) = false := by
      simp [Event.pick_event, Event.place_event]
    simp [List.countP_cons, List.countP_append, hnopick,
      hPlace pl (hresP pl hpl), hrows]
  · simp only [List.append_nil]
    rw [placeAfterTravelOk_pick]
    exact hAfter _

/-- The C6 example feeder, part type 7. -/
def fC6 : Node := ⟨100, 7, 0, 0⟩

/-- The C6 example placement. -/
def pC6 : Node := ⟨1, 7, 3, 4⟩

/-- The C6 example job. -/
def jobC6 : Job :=
  { job_id := 3
    machine := ⟨1, 2, 100, 1, 1, 1, 5⟩
    feeders := [fC6]
    placements := [pC6]
    feeder_placement_distances := fun _ _ => 5
    feeder_feeder_distances := fun _ _ => 0
    placement_placement_distances := fun _ _ => 0 }

/-- The C6 example routing solution: feeder → placement → feeder. -/
def rowsC6 : List ArcRow := [⟨100, 1, 0, 0, 3, 4, 5, 9⟩, ⟨1, 100, 3, 4, 0, 0, 5, 9⟩]

/-- The C6 example solver returning that solution. -/
def solverC6 : Node → List Node → List ArcRow := fun _ _ => rowsC6

/-- C6 witness: the per-cluster event-shape theorem applies to the
concrete one-placement cluster. -/
theorem C6_witness :
    (resolveNode jobC6 fC6.id = some (fC6, true) ∧
      (∀ pl ∈ [pC6], resolveNode jobC6 pl.id = some (pl, false)) ∧
      ([pC6] : List Node).Nodup ∧
      ((solverC6 fC6 [pC6]).map ArcRow.id_j).Perm ([pC6].map Node.id ++ [fC6.id]) ∧
      (∀ r ∈ solverC6 fC6 [pC6],
        (resolveNode jobC6 r.id_i).isSome ∧ (resolveNode jobC6 r.id_j).isSome)) ∧
    (∃ evs, clustersEvents solverC6 jobC6 fC6 [[pC6]] = Except.ok evs ∧
      (evs.countP fun e => decide (e.event_type = EventType.PICKUP)) = 1 ∧
      (evs.countP fun e => decide (e.event_type = EventType.TRAVEL)) =
        ([pC6] : List Node).length + 1 ∧
      (∀ pl ∈ [pC6],
        (evs.countP fun e => decide (e = Event.place_event pl jobC6.machine.place_time)) = 1) ∧
      placeAfterTravelOk none evs = true) :=
  ⟨⟨by decide, by decide, by decide, by decide, by decide⟩,
    C6_thm solverC6 jobC6 fC6 [pC6] (by decide) (by decide) (by decide) (by decide)
      (by decide)⟩

/-- A TRAVEL event between two ids of the feeder list `F`. -/
def isFFTravel (F : List Node) (e : Event) : Bool :=
  match e.detail with
  | Detail.travel a b => (F.any fun f => f.id == a) && (F.any fun f => f.id == b)
  | _ => false

/-- The claim-side transition list: one feeder-to-feeder TRAVEL per
consecutive pair of distinct feeders of the visit sequence, starting from
the optional initial head position. -/
def ffTransitions (job : Job) : Option Node → List Node → List Event
  | _, [] => []
  | none, f :: rest => ffTransitions job (some f) rest
  | some fp, f :: rest =>
    (if fp.id ≠ f.id then [ffTravel job fp f] else []) ++ ffTransitions job (some f) rest

/-- The claim-side transition list across a whole run of jobs sharing the
feeder list `F`: the last feeder visited in a job (its last feeder, when
it has any) carries over to the next job. -/
def ffTransitionsJobs (F : List Node) : Option Node → List (Job × ℕ) → List Event
  | _, [] => []
  | fp, (job, _) :: rest =>
    ffTransitions job fp F ++ ffTransitionsJobs F (F.getLast?.or fp) rest

lemma any_id_eq (F : List Node) (a : ℕ) :
    ((F.any fun f => f.id == a) = true) ↔ a ∈ F.map Node.id := by
  simp [List.any_eq_true, List.mem_map]

lemma ffTransitions_cons (job : Job) (fp : Option Node) (f : Node) (rest : List Node) :
    ffTransitions job fp (f :: rest) =
      ffStep job fp f ++ ffTransitions job (some f) rest := by
  cases fp with
  | none => rfl
  | some fprev =>
    show (if fprev.id ≠ f.id then [ffTravel job fprev f] else []) ++ _ = _
    rfl

lemma ffStep_filter (job : Job) (F : List Node) (fp : Option Node) (f : Node)
    (hfp : ∀ x, fp = some x → x ∈ F) (hf : f ∈ F) :
    (ffStep job fp f).filter (isFFTravel F) = ffStep job fp f := by
  cases fp with
  | none => rfl
  | some fprev =>
    show (List.filter (isFFTravel F) (if fprev.id ≠ f.id then [ffTravel job fprev f] else [])) =
      if fprev.id ≠ f.id then [ffTravel job fprev f] else []
    by_cases hid : fprev.id ≠ f.id
    · rw [if_pos hid]
      have hff : isFFTravel F (ffTravel job fprev f) = true := by
        simp only [isFFTravel, ffTravel, Event.travel_event, Bool.and_eq_true]
        exact ⟨(any_id_eq F fprev.id).mpr (List.mem_map_of_mem Node.id (hfp fprev rfl)),
          (any_id_eq F f.id).mpr (List.mem_map_of_mem Node.id hf)⟩
      simp [List.filter, hff]
    · rw [if_neg hid]
      rfl

lemma getPlacementEvents_ff (job : Job) (F : List Node) :
    ∀ (rows : List ArcRow) (evs : List Event),
      (∀ r ∈ rows, r.id_i ∉ F.map Node.id ∨ r.id_j ∉ F.map Node.id) →
      getPlacementEvents job rows = Except.ok evs →
      evs.filter (isFFTravel F) = [] := by
  intro rows
  induction rows with
  | nil =>
    intro evs _ hok
    cases hok
    rfl
  | cons row rest ih =>
    intro evs hno hok
    unfold getPlacementEvents at hok
    cases hns : resolveNode job row.id_i with
    | none =>
      rw [hns] at hok
      cases hok
    | some nsb =>
      cases hnf : resolveNode job row.id_j with
      | none =>
        rw [hns, hnf] at hok
        cases nsb
        cases hok
      | some nfb =>
        obtain ⟨ns, bs⟩ := nsb
        obtain ⟨nf, bf⟩ := nfb
        rw [hns, hnf] at hok
        cases hrest : getPlacementEvents job rest with
        | error e =>
          rw [hrest] at hok
          cases hok
        | ok evs2 =>
          rw [hrest] at hok
          have hevs : evs = (Event.travel_event ns nf row.arc_time
              ⟨row.x_i, row.y_i, row.x_j, row.y_j, row.arc_distance⟩ ::
            (if bf then [] else [Event.place_event nf job.machine.place_time])) ++ evs2 := by
            cases hok
            rfl
          have hih := ih evs2 (fun r hr => hno r (List.mem_cons_of_mem _ hr)) hrest
          have htravel : isFFTravel F (Event.travel_event ns nf row.arc_time
              ⟨row.x_i, row.y_i, row.x_j, row.y_j, row.arc_distance⟩) = false := by
            have hids := hno row (List.mem_cons_self _ _)
            have hns2 := resolveNode_id job row.id_i ns bs hns
            have hnf2 := resolveNode_id job row.id_j nf bf hnf
            simp only [isFFTravel, Event.travel_event, Bool.and_eq_false_iff]
            rcases hids with h | h
            · left
              rw [← Bool.not_eq_true]
              intro hc
              exact h (hns2 ▸ (any_id_eq F ns.id).mp hc)
            · right
              rw [← Bool.not_eq_true]
              intro hc
              exact h (hnf2 ▸ (any_id_eq F nf.id).mp hc)
          have hplace : ∀ tm, isFFTravel F (Event.place_event nf tm) = false := by
            intro tm
            rfl
          rw [hevs, List.filter_append]
          cases bf
          · simp [List.filter, htravel, hplace, hih]
          · simp [List.filter, htravel, hih]

lemma clustersEvents_ff (solver : Node → List Node → List ArcRow) (job : Job)
    (F : List Node)
    (hnof : ∀ feeder cluster, ∀ r ∈ solver feeder cluster,
      r.id_i ∉ F.map Node.id ∨ r.id_j ∉ F.map Node.id) (feeder : Node) :
    ∀ (clusters : List (List Node)) (evs : List Event),
      clustersEvents solver job feeder clusters = Except.ok evs →
      evs.filter (isFFTravel F) = [] := by
  intro clusters
  induction clusters with
  | nil =>
    intro evs hok
    cases hok
    rfl
  | cons cluster more ih =>
    intro evs hok
    unfold clustersEvents at hok
    cases hpe : getPlacementEvents job (solver feeder cluster) with
    | error e =>
      rw [hpe] at hok
      cases hok
    | ok pevs =>
      rw [hpe] at hok
      cases hrest : clustersEvents solver job feeder more with
      | error e =>
        rw [hrest] at hok
        cases hok
      | ok revs =>
        rw [hrest] at hok
        have hevs : evs = (Event.pick_event feeder job.machine.pick_time :: pevs) ++ revs := by
          cases hok
          rfl
        have h1 := getPlacementEvents_ff job F (solver feeder cluster) pevs
          (hnof feeder cluster) hpe
        have h2 := ih revs hrest
        have hpick : isFFTravel F (Event.pick_event feeder job.machine.pick_time) = false :=
          rfl
        rw [hevs, List.filter_append]
        simp [List.filter, hpick, h1, h2]

lemma runJobFeeders_ff (solver : Node → List Node → List ArcRow) (job : Job)
    (F : List Node)
    (hnof : ∀ feeder cluster, ∀ r ∈ solver feeder cluster,
      r.id_i ∉ F.map Node.id ∨ r.id_j ∉ F.map Node.id) :
    ∀ (fs : List Node) (fp : Option Node) (evs : List Event) (last : Option Node),
      (∀ f ∈ fs, f ∈ F) → (∀ f, fp = some f → f ∈ F) →
      runJobFeeders solver job fs fp = Except.ok (evs, last) →
      evs.filter (isFFTravel F) = ffTransitions job fp fs := by
  intro fs
  induction fs with
  | nil =>
    intro fp evs last _ _ hok
    cases hok
    cases fp <;> rfl
  | cons f rest ih =>
    intro fp evs last hsub hfp hok
    unfold runJobFeeders at hok
    cases hce : clustersEvents solver job f (clusterPlacements job f.part_type) with
    | error e =>
      rw [hce] at hok
      cases hok
    | ok clusterEvs =>
      rw [hce] at hok
      cases hrest : runJobFeeders solver job rest (some f) with
      | error e =>
        rw [hrest] at hok
        cases hok
      | ok out =>
        obtain ⟨restEvs, fLast⟩ := out
        rw [hrest] at hok
        have hevs : evs = ffStep job fp f ++ clusterEvs ++ restEvs := by
          cases hok
          rfl
        have hc1 := clustersEvents_ff solver job F hnof f _ clusterEvs hce
        have hc2 := ih (some f) restEvs fLast (fun x hx => hsub x (List.mem_cons_of_mem _ hx))
          (fun x hx => hsub x (by cases hx; exact List.mem_cons_self _ _)) hrest
        rw [hevs, List.filter_append, List.filter_append, hc1, hc2,
          ffStep_filter job F fp f hfp (hsub f (List.mem_cons_self _ _)),
          ffTransitions_cons]
        simp

lemma runJobFeeders_last (solver : Node → List Node → List ArcRow) (job : Job) :
    ∀ (fs : List Node) (fp : Option Node) (evs : List Event) (last : Option Node),
      runJobFeeders solver job fs fp = Except.ok (evs, last) →
      last = fs.getLast?.or fp := by
  intro fs
  induction fs with
  | nil =>
    intro fp evs last hok
    cases hok
    rfl
  | cons f rest ih =>
    intro fp evs last hok
    unfold runJobFeeders at hok
    cases hce : clustersEvents solver job f (clusterPlacements job f.part_type) with
    | error e =>
      rw [hce] at hok
      cases hok
    | ok clusterEvs =>
      rw [hce] at hok
      cases hrest : runJobFeeders solver job rest (some f) with
      | error e =>
        rw [hrest] at hok
        cases hok
      | ok out =>
        obtain ⟨restEvs, fLast⟩ := out
        rw [hrest] at hok
        have hlast : last = fLast := by
          cases hok
          rfl
        have h1 := ih (some f) restEvs fLast hrest
        rw [hlast, h1]
        cases rest with
        | nil => rfl
        | cons r rs =>
          rw [List.getLast?_cons_cons]
          have h2 : ((r :: rs).getLast?).isSome = true := List.getLast?_isSome.mpr (by simp)
          obtain ⟨x, hx⟩ := Option.isSome_iff_exists.mp h2
          rw [hx]
          rfl

lemma changeoverHead_filter (job : Job) (F : List Node) (pinfo : Option (ℕ × ℕ)) :
    (changeoverHead job pinfo).filter (isFFTravel F) = [] := by
  rcases pinfo with _ | ⟨a, b⟩ <;> rfl

lemma runEngineAux_ff (solver : Node → List Node → List ArcRow) (F : List Node)
    (hnof : ∀ feeder cluster, ∀ r ∈ solver feeder cluster,
      r.id_i ∉ F.map Node.id ∨ r.id_j ∉ F.map Node.id) :
    ∀ (jobs : List (Job × ℕ)) (prevInfo : Option (ℕ × ℕ)) (fp : Option Node)
      (seqs : List ((ℕ × ℕ) × List Event)),
      (∀ jq ∈ jobs, jq.1.feeders = F ∧ jq.2 = 1) →
      (∀ f, fp = some f → f ∈ F) →
      runEngineAux solver jobs prevInfo fp = Except.ok seqs →
      ((seqs.map Prod.snd).flatten).filter (isFFTravel F) = ffTransitionsJobs F fp jobs := by
  intro jobs
  induction jobs with
  | nil =>
    intro prevInfo fp seqs _ _ hok
    cases hok
    rfl
  | cons jq rest ih =>
    obtain ⟨job, quantity⟩ := jq
    intro prevInfo fp seqs hjq hfp hok
    have hF : job.feeders = F := (hjq (job, quantity) (List.mem_cons_self _ _)).1
    have hq : quantity = 1 := (hjq (job, quantity) (List.mem_cons_self _ _)).2
    unfold runEngineAux at hok
    cases hrun : runJob solver job fp with
    | error e =>
      rw [hrun] at hok
      cases hok
    | ok out =>
      obtain ⟨tripEvs, fLast2⟩ := out
      rw [hrun] at hok
      have hok2 : (do
          let restSeqs ← runEngineAux solver rest (some (job.job_id, max quantity 1)) fLast2
          (Except.ok ((((job.job_id, 1), changeoverHead job prevInfo ++ tripEvs) ::
            iterSeqs job.job_id job.machine.pcb_changeover_time tripEvs quantity) ++ restSeqs) :
            Except String (List ((ℕ × ℕ) × List Event)))) = Except.ok seqs := hok
      cases hrest : runEngineAux solver rest (some (job.job_id, max quantity 1)) fLast2 with
      | error e =>
        rw [hrest] at hok2
        cases hok2
      | ok restSeqs =>
        rw [hrest] at hok2
        have hseqs : seqs = (((job.job_id, 1), changeoverHead job prevInfo ++ tripEvs) ::
            iterSeqs job.job_id job.machine.pcb_changeover_time tripEvs quantity) ++
              restSeqs := by
          cases hok2
          rfl
        have hiter : iterSeqs job.job_id job.machine.pcb_changeover_time tripEvs quantity =
            [] := by
          rw [hq]
          rfl
        have hlast : fLast2 = F.getLast?.or fp := by
          have h1 : runJobFeeders solver job job.feeders fp = Except.ok (tripEvs, fLast2) :=
            hrun
          rw [hF] at h1
          exact runJobFeeders_last solver job F fp tripEvs fLast2 h1
        have htrip : tripEvs.filter (isFFTravel F) = ffTransitions job fp F := by
          have h1 : runJobFeeders solver job job.feeders fp = Except.ok (tripEvs, fLast2) :=
            hrun
          rw [hF] at h1
          exact runJobFeeders_ff solver job F hnof F fp tripEvs fLast2
            (fun f hf => hf) hfp h1
        have hfp2 : ∀ f, F.getLast?.or fp = some f → f ∈ F := by
          intro f hf
          cases hgl : F.getLast? with
          | none =>
            rw [hgl] at hf
            exact hfp f hf
          | some x =>
            rw [hgl] at hf
            cases hf
            exact List.mem_of_getLast?_eq_some hgl
        have hih := ih (some (job.job_id, max quantity 1)) fLast2 restSeqs
          (fun x hx => hjq x (List.mem_cons_of_mem _ hx)) (hlast ▸ hfp2) hrest
        rw [hseqs, hiter]
        show ((((job.job_id, 1), changeoverHead job prevInfo ++ tripEvs) :: ([] ++ restSeqs)).map
          Prod.snd).flatten.filter (isFFTravel F) = _
        simp only [List.nil_append, List.map_cons, List.flatten_cons, List.filter_append]
        rw [changeoverHead_filter, htrip, hih, hlast]
        show ffTransitions job fp F ++ ffTransitionsJobs F (F.getLast?.or fp) rest = _
        rfl

/-- C7 (amended): feeder-to-feeder TRAVEL events appear exactly at
transitions between distinct consecutive feeders in ascending-x order —
including feeders with no matching placements, which do receive the
feeder-to-feeder TRAVEL and become the last-visited feeder (they get no
PICKUP, having no clusters) — and the last-visited feeder persists across
job boundaries, so a new job whose first feeder differs from the previous
job's last feeder gets one feeder-to-feeder TRAVEL.  Formally: filtering
a job's event stream for feeder-to-feeder travels yields exactly the
transition list of the visit sequence, the returned last-visited feeder
is the job's last feeder (or the inherited one if the job has no
feeders), and over a whole run the filtered stream is the transition list
of the concatenated visit sequence threaded through `feeder_last`. -/
theorem C7_thm (solver : Node → List Node → List ArcRow) (F : List Node)
    (hnof : ∀ feeder cluster, ∀ r ∈ solver feeder cluster,
      r.id_i ∉ F.map Node.id ∨ r.id_j ∉ F.map Node.id) :
    (∀ (job : Job) (fp : Option Node) (evs : List Event) (last : Option Node),
      job.feeders = F → (∀ f, fp = some f → f ∈ F) →
      runJob solver job fp = Except.ok (evs, last) →
      evs.filter (isFFTravel F) = ffTransitions job fp F ∧ last = F.getLast?.or fp) ∧
    (∀ (jobs : List (Job × ℕ)) (seqs : List ((ℕ × ℕ) × List Event)),
      (∀ jq ∈ jobs, jq.1.feeders = F ∧ jq.2 = 1) →
      runEngine solver jobs = Except.ok seqs →
      ((seqs.map Prod.snd).flatten).filter (isFFTravel F) = ffTransitionsJobs F none jobs) := by
  constructor
  · intro job fp evs last hF hfp hok
    unfold runJob at hok
    rw [hF] at hok
    exact ⟨runJobFeeders_ff solver job F hnof F fp evs last (fun f hf => hf) hfp hok,
      runJobFeeders_last solver job F fp evs last hok⟩
  · intro jobs seqs hjq hok
    exact runEngineAux_ff solver F hnof jobs none none seqs hjq (fun f hf => by cases hf) hok

/-- First feeder of the C7 example (part type 1, one placement). -/
def f1C7 : Node := ⟨100, 1, 0, 0⟩

/-- Second feeder of the C7 example: part type 2, with no placements of
that part type in the job. -/
def f2C7 : Node := ⟨101, 2, 50, 0⟩

/-- The only placement of the C7 example. -/
def p1C7 : Node := ⟨1, 1, 3, 4⟩

/-- The C7 example job: two feeders, the second without matching
placements. -/
def jobC7 : Job :=
  { job_id := 9
    machine := ⟨1, 2, 100, 1, 1, 1, 5⟩
    feeders := [f1C7, f2C7]
    placements := [p1C7]
    feeder_placement_distances := fun _ _ => 5
    feeder_feeder_distances := fun _ _ => 50
    placement_placement_distances := fun _ _ => 0 }

/-- The C7 example solver: the unique feeder→placement→feeder tour of
the singleton cluster. -/
def solverC7 : Node → List Node → List ArcRow :=
  fun _ _ => [⟨100, 1, 0, 0, 3, 4, 5, 9⟩, ⟨1, 100, 3, 4, 0, 0, 5, 9⟩]

/-- Events of running the C7 example job. -/
def runC7evs : List Event :=
  match runJob solverC7 jobC7 none with
  | Except.ok (evs, _) => evs
  | Except.error _ => []

/-- Last-visited feeder after running the C7 example job. -/
def runC7last : Option Node :=
  match runJob solverC7 jobC7 none with
  | Except.ok (_, last) => last
  | Except.error _ => none

/-- C7 counterexample: the placement-less feeder (id 101) is not skipped
silently — the run emits a feeder-to-feeder TRAVEL to it (the final
`travel 100 101` event) and it becomes the last-visited feeder, refuting
the claim that a feeder with no matching placements gets no travel events.
(It does get no PICKUP: the only PICKUP is at feeder 100.) -/
theorem C7_counterexample :
    runC7evs.map (fun e => (e.event_type, e.detail)) =
      [(EventType.PICKUP, Detail.pickup 100 1),
       (EventType.TRAVEL, Detail.travel 100 1),
       (EventType.PLACE, Detail.place 1 1),
       (EventType.TRAVEL, Detail.travel 1 100),
       (EventType.TRAVEL, Detail.travel 100 101)] ∧
    runC7last = some f2C7 :=
  ⟨by decide, by decide⟩

lemma solverC7_no_ff : ∀ feeder cluster, ∀ r ∈ solverC7 feeder cluster,
    r.id_i ∉ ([f1C7, f2C7].map Node.id) ∨ r.id_j ∉ ([f1C7, f2C7].map Node.id) := by
  intro feeder cluster r hr
  cases hr with
  | head => right; decide
  | tail _ hr2 =>
    cases hr2 with
    | head => left; decide
    | tail _ hr3 => cases hr3

/-- C7 witness: the amended per-job characterisation applies to the
concrete two-feeder job. -/
theorem C7_witness :
    (∀ feeder cluster, ∀ r ∈ solverC7 feeder cluster,
      r.id_i ∉ ([f1C7, f2C7].map Node.id) ∨ r.id_j ∉ ([f1C7, f2C7].map Node.id)) ∧
    (∀ (job : Job) (fp : Option Node) (evs : List Event) (last : Option Node),
      job.feeders = [f1C7, f2C7] → (∀ f, fp = some f → f ∈ [f1C7, f2C7]) →
      runJob solverC7 job fp = Except.ok (evs, last) →
      evs.filter (isFFTravel [f1C7, f2C7]) = ffTransitions job fp [f1C7, f2C7] ∧
        last = ([f1C7, f2C7] : List Node).getLast?.or fp) :=
  ⟨solverC7_no_ff, (C7_thm solverC7 [f1C7, f2C7] solverC7_no_ff).1⟩

/-- Boolean test for CHANGEOVER events. -/
def isChange (e : Event) : Bool := decide (e.event_type = EventType.CHANGEOVER)

/-- Drop the leading CHANGEOVER of a per-iteration sequence, if any,
leaving the iteration body. -/
def dropChange : List Event → List Event
  | [] => []
  | e :: rest => if e.event_type = EventType.CHANGEOVER then rest else e :: rest

lemma getPlacementEvents_noChange (job : Job) :
    ∀ (rows : List ArcRow) (evs : List Event),
      getPlacementEvents job rows = Except.ok evs → evs.countP isChange = 0 := by
  intro rows
  induction rows with
  | nil =>
    intro evs hok
    cases hok
    rfl
  | cons row rest ih =>
    intro evs hok
    unfold getPlacementEvents at hok
    cases hns : resolveNode job row.id_i with
    | none =>
      rw [hns] at hok
      cases hok
    | some nsb =>
      cases hnf : resolveNode job row.id_j with
      | none =>
        rw [hns, hnf] at hok
        cases nsb
        cases hok
      | some nfb =>
        obtain ⟨ns, bs⟩ := nsb
        obtain ⟨nf, bf⟩ := nfb
        rw [hns, hnf] at hok
        cases hrest : getPlacementEvents job rest with
        | error e =>
          rw [hrest] at hok
          cases hok
        | ok evs2 =>
          rw [hrest] at hok
          have hevs : evs = (Event.travel_event ns nf row.arc_time
              ⟨row.x_i, row.y_i, row.x_j, row.y_j, row.arc_distance⟩ ::
            (if bf then [] else [Event.place_event nf job.machine.place_time])) ++ evs2 := by
            cases hok
            rfl
          have hih := ih evs2 hrest
          rw [hevs, List.countP_append]
          cases bf <;>
            simp [List.countP_cons, isChange, Event.travel_event, Event.place_event, hih]

lemma clustersEvents_noChange (solver : Node → List Node → List ArcRow) (job : Job)
    (feeder : Node) :
    ∀ (clusters : List (List Node)) (evs : List Event),
      clustersEvents solver job feeder clusters = Except.ok evs →
      evs.countP isChange = 0 := by
  intro clusters
  induction clusters with
  | nil =>
    intro evs hok
    cases hok
    rfl
  | cons cluster more ih =>
    intro evs hok
    unfold clustersEvents at hok
    cases hpe : getPlacementEvents job (solver feeder cluster) with
    | error e =>
      rw [hpe] at hok
      cases hok
    | ok pevs =>
      rw [hpe] at hok
      cases hrest : clustersEvents solver job feeder more with
      | error e =>
        rw [hrest] at hok
        cases hok
      | ok revs =>
        rw [hrest] at hok
        have hevs : evs = (Event.pick_event feeder job.machine.pick_time :: pevs) ++ revs := by
          cases hok
          rfl
        have h1 := getPlacementEvents_noChange job (solver feeder cluster) pevs hpe
        have h2 := ih revs hrest
        rw [hevs, List.countP_append, List.countP_cons]
        simp [isChange, Event.pick_event, h1, h2]

lemma ffStep_noChange (job : Job) (fp : Option Node) (f : Node) :
    (ffStep job fp f).countP isChange = 0 := by
  cases fp with
  | none => rfl
  | some fprev =>
    show (List.countP isChange (if fprev.id ≠ f.id then [ffTravel job fprev f] else [])) = 0
    by_cases hid : fprev.id ≠ f.id
    · rw [if_pos hid]
      rfl
    · rw [if_neg hid]
      rfl

lemma runJobFeeders_noChange (solver : Node → List Node → List ArcRow) (job : Job) :
    ∀ (fs : List Node) (fp : Option Node) (evs : List Event) (last : Option Node),
      runJobFeeders solver job fs fp = Except.ok (evs, last) →
      evs.countP isChange = 0 := by
  intro fs
  induction fs with
  | nil =>
    intro fp evs last hok
    cases hok
    rfl
  | cons f rest ih =>
    intro fp evs last hok
    unfold runJobFeeders at hok
    cases hce : clustersEvents solver job f (clusterPlacements job f.part_type) with
    | error e =>
      rw [hce] at hok
      cases hok
    | ok clusterEvs =>
      rw [hce] at hok
      cases hrest : runJobFeeders solver job rest (some f) with
      | error e =>
        rw [hrest] at hok
        cases hok
      | ok out =>
        obtain ⟨restEvs, fLast⟩ := out
        rw [hrest] at hok
        have hevs : evs = ffStep job fp f ++ clusterEvs ++ restEvs := by
          cases hok
          rfl
        rw [hevs, List.countP_append, List.countP_append, ffStep_noChange,
          clustersEvents_noChange solver job f _ clusterEvs hce, ih _ _ _ hrest]

lemma iterSeqs_changeCount_aux (jid : ℕ) (cot : ℚ) (trip : List Event)
    (htrip : trip.countP isChange = 0) :
    ∀ n : ℕ,
      ((((List.range n).map fun k =>
          ((jid, k + 2), Event.changeover_event jid (k + 1) jid (k + 2) cot :: trip)).map
        Prod.snd).flatten.countP isChange) = n := by
  intro n
  induction n with
  | zero => rfl
  | succ n ih =>
    rw [List.range_succ, List.map_append, List.map_append, List.flatten_append,
      List.countP_append, ih]
    simp [List.countP_cons, isChange, Event.changeover_event, htrip]

lemma iterSeqs_changeCount (jid : ℕ) (cot : ℚ) (trip : List Event) (q : ℕ)
    (htrip : trip.countP isChange = 0) :
    (((iterSeqs jid cot trip q).map Prod.snd).flatten.countP isChange) = q - 1 := by
  unfold iterSeqs
  exact iterSeqs_changeCount_aux jid cot trip htrip (q - 1)

lemma iterSeqs_mem (jid : ℕ) (cot : ℚ) (trip : List Event) (q : ℕ) :
    ∀ s ∈ iterSeqs jid cot trip q, ∃ k, s =
      ((jid, k + 2), Event.changeover_event jid (k + 1) jid (k + 2) cot :: trip) := by
  intro s hs
  obtain ⟨k, _, hk⟩ := List.mem_map.mp hs
  exact ⟨k, hk.symm⟩

lemma changeoverHead_count (job : Job) (pinfo : Option (ℕ × ℕ)) :
    (changeoverHead job pinfo).countP isChange = if pinfo.isSome then 1 else 0 := by
  rcases pinfo with _ | ⟨a, b⟩ <;> rfl

lemma runEngineAux_changeCount_some (solver : Node → List Node → List ArcRow) :
    ∀ (jobs : List (Job × ℕ)) (pinfo : ℕ × ℕ) (fp : Option Node)
      (seqs : List ((ℕ × ℕ) × List Event)),
      (∀ jq ∈ jobs, 1 ≤ jq.2) →
      runEngineAux solver jobs (some pinfo) fp = Except.ok seqs →
      ((seqs.map Prod.snd).flatten.countP isChange) = (jobs.map fun jq => jq.2).sum := by
  intro jobs
  induction jobs with
  | nil =>
    intro pinfo fp seqs _ hok
    cases hok
    rfl
  | cons jq rest ih =>
    obtain ⟨job, quantity⟩ := jq
    intro pinfo fp seqs hq hok
    have hq1 : 1 ≤ quantity := hq (job, quantity) (List.mem_cons_self _ _)
    unfold runEngineAux at hok
    cases hrun : runJob solver job fp with
    | error e =>
      rw [hrun] at hok
      cases hok
    | ok out =>
      obtain ⟨tripEvs, fLast2⟩ := out
      rw [hrun] at hok
      have hok2 : (do
          let restSeqs ← runEngineAux solver rest (some (job.job_id, max quantity 1)) fLast2
          (Except.ok ((((job.job_id, 1), changeoverHead job (some pinfo) ++ tripEvs) ::
            iterSeqs job.job_id job.machine.pcb_changeover_time tripEvs quantity) ++ restSeqs) :
            Except String (List ((ℕ × ℕ) × List Event)))) = Except.ok seqs := hok
      cases hrest : runEngineAux solver rest (some (job.job_id, max quantity 1)) fLast2 with
      | error e =>
        rw [hrest] at hok2
        cases hok2
      | ok restSeqs =>
        rw [hrest] at hok2
        have hseqs : seqs = (((job.job_id, 1), changeoverHead job (some pinfo) ++ tripEvs) ::
            iterSeqs job.job_id job.machine.pcb_changeover_time tripEvs quantity) ++
              restSeqs := by
          cases hok2
          rfl
        have htrip : tripEvs.countP isChange = 0 :=
          runJobFeeders_noChange solver job job.feeders fp tripEvs fLast2 hrun
        have hihres := ih (job.job_id, max quantity 1) fLast2 restSeqs
          (fun x hx => hq x (List.mem_cons_of_mem _ hx)) hrest
        rw [hseqs]
        simp only [List.map_append, List.map_cons, List.flatten_append, List.flatten_cons,
          List.countP_append, changeoverHead_count,
          iterSeqs_changeCount job.job_id job.machine.pcb_changeover_time tripEvs quantity
            htrip, hihres, htrip, List.sum_cons, Option.isSome_some, if_true]
        omega

lemma runEngineAux_changeCount_none (solver : Node → List Node → List ArcRow)
    (jobs : List (Job × ℕ)) (fp : Option Node) (seqs : List ((ℕ × ℕ) × List Event))
    (hq : ∀ jq ∈ jobs, 1 ≤ jq.2)
    (hok : runEngineAux solver jobs none fp = Except.ok seqs) :
    ((seqs.map Prod.snd).flatten.countP isChange) = (jobs.map fun jq => jq.2).sum - 1 := by
  cases jobs with
  | nil =>
    cases hok
    rfl
  | cons jq rest =>
    obtain ⟨job, quantity⟩ := jq
    have hq1 : 1 ≤ quantity := hq (job, quantity) (List.mem_cons_self _ _)
    unfold runEngineAux at hok
    cases hrun : runJob solver job fp with
    | error e =>
      rw [hrun] at hok
      cases hok
    | ok out =>
      obtain ⟨tripEvs, fLast2⟩ := out
      rw [hrun] at hok
      have hok2 : (do
          let restSeqs ← runEngineAux solver rest (some (job.job_id, max quantity 1)) fLast2
          (Except.ok ((((job.job_id, 1), changeoverHead job none ++ tripEvs) ::
            iterSeqs job.job_id job.machine.pcb_changeover_time tripEvs quantity) ++ restSeqs) :
            Except String (List ((ℕ × ℕ) × List Event)))) = Except.ok seqs := hok
      cases hrest : runEngineAux solver rest (some (job.job_id, max quantity 1)) fLast2 with
      | error e =>
        rw [hrest] at hok2
        cases hok2
      | ok restSeqs =>
        rw [hrest] at hok2
        have hseqs : seqs = (((job.job_id, 1), changeoverHead job none ++ tripEvs) ::
            iterSeqs job.job_id job.machine.pcb_changeover_time tripEvs quantity) ++
              restSeqs := by
          cases hok2
          rfl
        have htrip : tripEvs.countP isChange = 0 :=
          runJobFeeders_noChange solver job job.feeders fp tripEvs fLast2 hrun
        have hihres := runEngineAux_changeCount_some solver rest (job.job_id, max quantity 1)
          fLast2 restSeqs (fun x hx => hq x (List.mem_cons_of_mem _ hx)) hrest
        rw [hseqs]
        simp only [List.map_append, List.map_cons, List.flatten_append, List.flatten_cons,
          List.countP_append, changeoverHead_count,
          iterSeqs_changeCount job.job_id job.machine.pcb_changeover_time tripEvs quantity
            htrip, hihres, htrip, List.sum_cons, Option.isSome_none]
        norm_num
        omega

lemma dropChange_noChange (l : List Event) (h : l.countP isChange = 0) :
    dropChange l = l := by
  cases l with
  | nil => rfl
  | cons e rest =>
    show (if e.event_type = EventType.CHANGEOVER then rest else e :: rest) = e :: rest
    rw [if_neg]
    intro hc
    rw [List.countP_cons] at h
    simp [isChange, hc] at h

lemma dropChange_changeover (a b c d : ℕ) (cot : ℚ) (l : List Event) :
    dropChange (Event.changeover_event a b c d cot :: l) = l := by
  simp [dropChange, Event.changeover_event]

lemma runEngineAux_perSeq_some (solver : Node → List Node → List ArcRow) :
    ∀ (jobs : List (Job × ℕ)) (pinfo : ℕ × ℕ) (fp : Option Node)
      (seqs : List ((ℕ × ℕ) × List Event)),
      runEngineAux solver jobs (some pinfo) fp = Except.ok seqs →
      ∀ s ∈ seqs, ∃ e t, s.2 = e :: t ∧ isChange e = true ∧ t.countP isChange = 0 := by
  intro jobs
  induction jobs with
  | nil =>
    intro pinfo fp seqs hok s hs
    cases hok
    cases hs
  | cons jq rest ih =>
    obtain ⟨job, quantity⟩ := jq
    intro pinfo fp seqs hok s hs
    obtain ⟨pa, pb⟩ := pinfo
    unfold runEngineAux at hok
    cases hrun : runJob solver job fp with
    | error e =>
      rw [hrun] at hok
      cases hok
    | ok out =>
      obtain ⟨tripEvs, fLast2⟩ := out
      rw [hrun] at hok
      have hok2 : (do
          let restSeqs ← runEngineAux solver rest (some (job.job_id, max quantity 1)) fLast2
          (Except.ok ((((job.job_id, 1), changeoverHead job (some (pa, pb)) ++ tripEvs) ::
            iterSeqs job.job_id job.machine.pcb_changeover_time tripEvs quantity) ++ restSeqs) :
            Except String (List ((ℕ × ℕ) × List Event)))) = Except.ok seqs := hok
      cases hrest : runEngineAux solver rest (some (job.job_id, max quantity 1)) fLast2 with
      | error e =>
        rw [hrest] at hok2
        cases hok2
      | ok restSeqs =>
        rw [hrest] at hok2
        have hseqs : seqs = (((job.job_id, 1),
            changeoverHead job (some (pa, pb)) ++ tripEvs) ::
            iterSeqs job.job_id job.machine.pcb_changeover_time tripEvs quantity) ++
              restSeqs := by
          cases hok2
          rfl
        have htrip : tripEvs.countP isChange = 0 :=
          runJobFeeders_noChange solver job job.feeders fp tripEvs fLast2 hrun
        rw [hseqs] at hs
        rcases List.mem_append.mp hs with hmem | hmem
        · rcases List.mem_cons.mp hmem with hmem | hmem
          · refine ⟨Event.changeover_event pa pb job.job_id 1 job.machine.pcb_changeover_time,
              tripEvs, ?_, rfl, htrip⟩
            rw [hmem]
            rfl
          · obtain ⟨k, hk⟩ := iterSeqs_mem job.job_id job.machine.pcb_changeover_time
              tripEvs quantity s hmem
            exact ⟨Event.changeover_event job.job_id (k + 1) job.job_id (k + 2)
              job.machine.pcb_changeover_time, tripEvs, by subst hk; rfl, rfl, htrip⟩
        · exact ih (job.job_id, max quantity 1) fLast2 restSeqs hrest s hmem

lemma runEngineAux_perSeq_none (solver : Node → List Node → List ArcRow)
    (jobs : List (Job × ℕ)) (fp : Option Node) (seqs : List ((ℕ × ℕ) × List Event))
    (hok : runEngineAux solver jobs none fp = Except.ok seqs) :
    (∀ hd ∈ seqs.head?, hd.2.countP isChange = 0) ∧
    (∀ s ∈ seqs.tail, ∃ e t, s.2 = e :: t ∧ isChange e = true ∧
      t.countP isChange = 0) := by
  cases jobs with
  | nil =>
    cases hok
    refine ⟨?_, ?_⟩ <;> intro x h <;> simp at h
  | cons jq rest =>
    obtain ⟨job, quantity⟩ := jq
    unfold runEngineAux at hok
    cases hrun : runJob solver job fp with
    | error e =>
      rw [hrun] at hok
      cases hok
    | ok out =>
      obtain ⟨tripEvs, fLast2⟩ := out
      rw [hrun] at hok
      have hok2 : (do
          let restSeqs ← runEngineAux solver rest (some (job.job_id, max quantity 1)) fLast2
          (Except.ok ((((job.job_id, 1), changeoverHead job none ++ tripEvs) ::
            iterSeqs job.job_id job.machine.pcb_changeover_time tripEvs quantity) ++ restSeqs) :
            Except String (List ((ℕ × ℕ) × List Event)))) = Except.ok seqs := hok
      cases hrest : runEngineAux solver rest (some (job.job_id, max quantity 1)) fLast2 with
      | error e =>
        rw [hrest] at hok2
        cases hok2
      | ok restSeqs =>
        rw [hrest] at hok2
        have hseqs : seqs = (((job.job_id, 1), changeoverHead job none ++ tripEvs) ::
            iterSeqs job.job_id job.machine.pcb_changeover_time tripEvs quantity) ++
              restSeqs := by
          cases hok2
          rfl
        have htrip : tripEvs.countP isChange = 0 :=
          runJobFeeders_noChange solver job job.feeders fp tripEvs fLast2 hrun
        constructor
        · intro hd hh
          rw [hseqs] at hh
          simp only [List.cons_append, List.head?_cons, Option.mem_def,
            Option.some.injEq] at hh
          rw [← hh]
          exact htrip
        · intro s hs
          rw [hseqs] at hs
          simp only [List.cons_append, List.tail_cons] at hs
          rcases List.mem_append.mp hs with hmem | hmem
          · obtain ⟨k, hk⟩ := iterSeqs_mem job.job_id job.machine.pcb_changeover_time
              tripEvs quantity s hmem
            exact ⟨Event.changeover_event job.job_id (k + 1) job.job_id (k + 2)
              job.machine.pcb_changeover_time, tripEvs, by subst hk; rfl, rfl, htrip⟩
          · exact runEngineAux_perSeq_some solver rest (job.job_id, max quantity 1) fLast2
              restSeqs hrest s hmem

lemma runEngineAux_ids (solver : Node → List Node → List ArcRow) :
    ∀ (jobs : List (Job × ℕ)) (prevInfo : Option (ℕ × ℕ)) (fp : Option Node)
      (seqs : List ((ℕ × ℕ) × List Event)),
      runEngineAux solver jobs prevInfo fp = Except.ok seqs →
      ∀ s ∈ seqs, s.1.1 ∈ jobs.map fun jq => jq.1.job_id := by
  intro jobs
  induction jobs with
  | nil =>
    intro prevInfo fp seqs hok s hs
    cases hok
    cases hs
  | cons jq rest ih =>
    obtain ⟨job, quantity⟩ := jq
    intro prevInfo fp seqs hok s hs
    unfold runEngineAux at hok
    cases hrun : runJob solver job fp with
    | error e =>
      rw [hrun] at hok
      cases hok
    | ok out =>
      obtain ⟨tripEvs, fLast2⟩ := out
      rw [hrun] at hok
      have hok2 : (do
          let restSeqs ← runEngineAux solver rest (some (job.job_id, max quantity 1)) fLast2
          (Except.ok ((((job.job_id, 1), changeoverHead job prevInfo ++ tripEvs) ::
            iterSeqs job.job_id job.machine.pcb_changeover_time tripEvs quantity) ++ restSeqs) :
            Except String (List ((ℕ × ℕ) × List Event)))) = Except.ok seqs := hok
      cases hrest : runEngineAux solver rest (some (job.job_id, max quantity 1)) fLast2 with
      | error e =>
        rw [hrest] at hok2
        cases hok2
      | ok restSeqs =>
        rw [hrest] at hok2
        have hseqs : seqs = (((job.job_id, 1), changeoverHead job prevInfo ++ tripEvs) ::
            iterSeqs job.job_id job.machine.pcb_changeover_time tripEvs quantity) ++
              restSeqs := by
          cases hok2
          rfl
        rw [hseqs] at hs
        simp only [List.map_cons]
        rcases List.mem_append.mp hs with hmem | hmem
        · rcases List.mem_cons.mp hmem with hmem | hmem
          · rw [hmem]
            exact List.mem_cons_self _ _
          · obtain ⟨k, hk⟩ := iterSeqs_mem job.job_id job.machine.pcb_changeover_time
              tripEvs quantity s hmem
            rw [hk]
            exact List.mem_cons_self _ _
        · exact List.mem_cons_of_mem _ (ih _ fLast2 restSeqs hrest s hmem)

lemma runEngineAux_dropChange (solver : Node → List Node → List ArcRow) :
    ∀ (jobs : List (Job × ℕ)) (prevInfo : Option (ℕ × ℕ)) (fp : Option Node)
      (seqs : List ((ℕ × ℕ) × List Event)),
      (jobs.map fun jq => jq.1.job_id).Nodup →
      runEngineAux solver jobs prevInfo fp = Except.ok seqs →
      ∀ s1 ∈ seqs, ∀ s2 ∈ seqs, s1.1.1 = s2.1.1 →
        dropChange s1.2 = dropChange s2.2 := by
  intro jobs
  induction jobs with
  | nil =>
    intro prevInfo fp seqs _ hok s1 hs1 s2 hs2 hkey
    cases hok
    cases hs1
  | cons jq rest ih =>
    obtain ⟨job, quantity⟩ := jq
    intro prevInfo fp seqs hnodup hok s1 hs1 s2 hs2 hkey
    unfold runEngineAux at hok
    cases hrun : runJob solver job fp with
    | error e =>
      rw [hrun] at hok
      cases hok
    | ok out =>
      obtain ⟨tripEvs, fLast2⟩ := out
      rw [hrun] at hok
      have hok2 : (do
          let restSeqs ← runEngineAux solver rest (some (job.job_id, max quantity 1)) fLast2
          (Except.ok ((((job.job_id, 1), changeoverHead job prevInfo ++ tripEvs) ::
            iterSeqs job.job_id job.machine.pcb_changeover_time tripEvs quantity) ++ restSeqs) :
            Except String (List ((ℕ × ℕ) × List Event)))) = Except.ok seqs := hok
      cases hrest : runEngineAux solver rest (some (job.job_id, max quantity 1)) fLast2 with
      | error e =>
        rw [hrest] at hok2
        cases hok2
      | ok restSeqs =>
        rw [hrest] at hok2
        have hseqs : seqs = (((job.job_id, 1), changeoverHead job prevInfo ++ tripEvs) ::
            iterSeqs job.job_id job.machine.pcb_changeover_time tripEvs quantity) ++
              restSeqs := by
          cases hok2
          rfl
        have htrip : tripEvs.countP isChange = 0 :=
          runJobFeeders_noChange solver job job.feeders fp tripEvs fLast2 hrun
        simp only [List.map_cons, List.nodup_cons] at hnodup
        obtain ⟨hhead, htail⟩ := hnodup
        have hgroup : ∀ s ∈ (((job.job_id, 1), changeoverHead job prevInfo ++ tripEvs) ::
            iterSeqs job.job_id job.machine.pcb_changeover_time tripEvs quantity),
            s.1.1 = job.job_id ∧ dropChange s.2 = tripEvs := by
          intro s hs
          rcases List.mem_cons.mp hs with hmem | hmem
          · rw [hmem]
            refine ⟨rfl, ?_⟩
            rcases prevInfo with _ | ⟨pa, pb⟩
            · exact dropChange_noChange tripEvs htrip
            · exact dropChange_changeover pa pb job.job_id 1
                job.machine.pcb_changeover_time tripEvs
          · obtain ⟨k, hk⟩ := iterSeqs_mem job.job_id job.machine.pcb_changeover_time
              tripEvs quantity s hmem
            rw [hk]
            exact ⟨rfl, dropChange_changeover _ _ _ _ _ _⟩
        have hrestid : ∀ s ∈ restSeqs, s.1.1 ≠ job.job_id := by
          intro s hs hc
          have := runEngineAux_ids solver rest _ fLast2 restSeqs hrest s hs
          rw [hc] at this
          exact hhead this
        rw [hseqs] at hs1 hs2
        rcases List.mem_append.mp hs1 with hm1 | hm1 <;>
          rcases List.mem_append.mp hs2 with hm2 | hm2
        · rw [(hgroup s1 hm1).2, (hgroup s2 hm2).2]
        · exact absurd ((hgroup s1 hm1).1 ▸ hkey).symm (hrestid s2 hm2)
        · exact absurd ((hgroup s2 hm2).1 ▸ hkey.symm).symm (hrestid s1 hm1)
        · exact ih _ fLast2 restSeqs htail hrest s1 hm1 s2 hm2 hkey

/-- C8: over a whole engine run with all quantities at least 1 and distinct
job ids, (a) the total number of CHANGEOVER events equals the sum of the
quantities minus 1, a CHANGEOVER at every boundary between consecutive job
instances; (b) the first stored iteration sequence contains no CHANGEOVER
and every later one contains exactly one, as its first event; (c) any two
iteration sequences of the same job are identical once the leading
CHANGEOVER is dropped (the deep copy of iteration 1's events; deep copy is
the identity on immutable event values). -/
theorem C8_thm (solver : Node → List Node → List ArcRow) (jobs : List (Job × ℕ))
    (seqs : List ((ℕ × ℕ) × List Event))
    (hq : ∀ jq ∈ jobs, 1 ≤ jq.2)
    (hnodup : (jobs.map fun jq => jq.1.job_id).Nodup)
    (hok : runEngine solver jobs = Except.ok seqs) :
    ((seqs.map Prod.snd).flatten.countP isChange) = (jobs.map fun jq => jq.2).sum - 1 ∧
    (∀ hd ∈ seqs.head?, hd.2.countP isChange = 0) ∧
    (∀ s ∈ seqs.tail, s.2.countP isChange = 1 ∧
      ∃ e t, s.2 = e :: t ∧ isChange e = true ∧ t.countP isChange = 0) ∧
    (∀ s1 ∈ seqs, ∀ s2 ∈ seqs, s1.1.1 = s2.1.1 → dropChange s1.2 = dropChange s2.2) := by
  refine ⟨runEngineAux_changeCount_none solver jobs none seqs hq hok, ?_, ?_, ?_⟩
  · exact (runEngineAux_perSeq_none solver jobs none seqs hok).1
  · intro s hs
    obtain ⟨e, t, het, hce, hct⟩ :=
      (runEngineAux_perSeq_none solver jobs none seqs hok).2 s hs
    refine ⟨?_, e, t, het, hce, hct⟩
    rw [het, List.countP_cons, hct]
    simp [hce]
  · exact runEngineAux_dropChange solver jobs none none seqs hnodup hok

/-- The C8 example job list: the C6 job with quantity 2. -/
def jobsC8 : List (Job × ℕ) := [(jobC6, 2)]

/-- The stored sequences of the C8 example run. -/
def seqsC8 : List ((ℕ × ℕ) × List Event) :=
  match runEngine solverC6 jobsC8 with
  | Except.ok s => s
  | Except.error _ => []

/-- C8 witness: the changeover-structure theorem applies to the concrete
two-iteration run. -/
theorem C8_witness :
    ((∀ jq ∈ jobsC8, 1 ≤ jq.2) ∧ (jobsC8.map fun jq => jq.1.job_id).Nodup) ∧
    ((seqsC8.map Prod.snd).flatten.countP isChange) =
      (jobsC8.map fun jq => jq.2).sum - 1 :=
  ⟨⟨by decide, by decide⟩,
    (C8_thm solverC6 jobsC8 seqsC8 (by decide) (by decide) rfl).1⟩

/-- A row of the jobs sheet. -/
structure JobRow where
  id : ℕ
  quantity : ℕ
  due_time_s : ℚ
deriving DecidableEq

/-- A row of the feeders sheet. -/
structure FeederRow where
  id : ℕ
  part_type : ℕ
  pickup_x_mm : ℚ
  pickup_y_mm : ℚ
deriving DecidableEq

/-- A row of the tools sheet. -/
structure ToolRow where
  part_type : ℕ
  nozzle_size : ℕ
deriving DecidableEq

/-- A row of the placements sheet. -/
structure PlacementRow where
  job_id : ℕ
  id : ℕ
  part_type : ℕ
deriving DecidableEq

/-- The sheets `Setup.load_data` reads. -/
structure SetupInput where
  tools : List ToolRow
  feeders : List FeederRow
  jobs : List JobRow
  placements : List PlacementRow

/-- pandas `Series.duplicated().any()`: some value occurs twice. -/
def hasDup {α : Type} [DecidableEq α] (l : List α) : Bool := decide (¬ l.Nodup)

/-- `np.all(feeders_pickup_y[0] == feeders_pickup_y)`: every pickup y
equals the first; on an empty sheet the source's `feeders_pickup_y[0]`
raises IndexError before any comparison, modelled as `none`. -/
def pickupYConsistent (feeders : List FeederRow) : Option Bool :=
  match feeders with
  | [] => none
  | f0 :: _ => some (feeders.all fun f => f.pickup_y_mm == f0.pickup_y_mm)

/-- The `err_msg` string `Setup.load_data` accumulates, one fragment per
failed check in source order (the tools fragment lacks the trailing
separator, as in the source). -/
def loadDataMsg (s : SetupInput) : String :=
  (if hasDup (s.jobs.map JobRow.id) then "Job IDs are not unique \n" else "") ++
  (if hasDup (s.tools.map ToolRow.part_type) then
    "Expected one-to-one mapping between part type and nozzle size" else "") ++
  (if hasDup (s.feeders.map FeederRow.id) then "Feeder IDs are not unique \n" else "") ++
  (if hasDup (s.feeders.map FeederRow.part_type) then
    "Expected one-to-one mapping between feeder and part type \n" else "") ++
  (if pickupYConsistent s.feeders == some false then
    "Expected consistent feeder pickup y \n" else "") ++
  (if hasDup (s.placements.map fun p => (p.job_id, p.id)) then
    "Placement IDs are not unique \n" else "")

/-- `Setup.load_data`: an empty feeders sheet crashes with IndexError at
the pickup-y check, discarding `err_msg` (modelled up front, since the
exception pre-empts the ValueError); otherwise raise
`ValueError(err_msg.strip())` when any check failed, else build the job
list from the jobs sheet sorted ascending by `due_time_s` (`sort_values`;
its default sort is not stable, and only the ordering is relied on, so
the embedding asserts nothing about ties). -/
def loadData (s : SetupInput) : Except String (List JobRow) :=
  match pickupYConsistent s.feeders with
  | none => Except.error "IndexError: index 0 is out of bounds for axis 0 with size 0"
  | some _ =>
    if loadDataMsg s = "" then Except.ok (sortByKey JobRow.due_time_s s.jobs)
    else Except.error (loadDataMsg s).trim

/-- The C9 counterexample input: a duplicated tools-sheet part_type while
every rule the claim enumerates holds. -/
def sC9 : SetupInput :=
  { tools := [⟨7, 1⟩, ⟨7, 2⟩]
    feeders := [⟨100, 7, 0, 0⟩, ⟨101, 8, 10, 0⟩]
    jobs := [⟨1, 1, 100⟩, ⟨2, 1, 200⟩]
    placements := [⟨1, 1, 7⟩, ⟨2, 1, 8⟩] }

/-- C9 counterexample: `load_data` fails on this input although job ids,
feeder ids, feeder part_types and (job_id, placement id) pairs are all
unique and the pickup y values agree — the violated check (duplicate
tools-sheet part_type) is not among the claim's five rules. -/
theorem C9_counterexample :
    (∃ e, loadData sC9 = Except.error e) ∧
    loadDataMsg sC9 = "Expected one-to-one mapping between part type and nozzle size" ∧
    (sC9.jobs.map JobRow.id).Nodup ∧
    (sC9.feeders.map FeederRow.id).Nodup ∧
    (sC9.feeders.map FeederRow.part_type).Nodup ∧
    (sC9.placements.map fun p => (p.job_id, p.id)).Nodup ∧
    pickupYConsistent sC9.feeders = some true := by
  refine ⟨⟨(loadDataMsg sC9).trim, ?_⟩, by decide, by decide, by decide, by decide,
    by decide, by decide⟩
  have h : ¬ loadDataMsg sC9 = "" := by decide
  show (match pickupYConsistent sC9.feeders with
    | none => Except.error "IndexError: index 0 is out of bounds for axis 0 with size 0"
    | some _ =>
      if loadDataMsg sC9 = "" then Except.ok (sortByKey JobRow.due_time_s sC9.jobs)
      else Except.error (loadDataMsg sC9).trim) = Except.error (loadDataMsg sC9).trim
  rw [show pickupYConsistent sC9.feeders = some true from rfl]
  rw [if_neg h]

/-- C9 (amended): for an input whose feeders sheet is non-empty (an empty
sheet crashes earlier with IndexError at the pickup-y indexing),
`load_data` fails iff at least one of the SIX source checks fires — the
five the claim lists plus the tools-sheet duplicate part_type check; the
error message is the stripped concatenation of the per-check fragments;
on success the job rows are returned sorted by ascending due time (a
permutation of the input rows). -/
theorem C9_thm (s : SetupInput) (hfe : s.feeders ≠ []) :
    ((∃ e, loadData s = Except.error e) ↔
      (hasDup (s.jobs.map JobRow.id) = true ∨
       hasDup (s.tools.map ToolRow.part_type) = true ∨
       hasDup (s.feeders.map FeederRow.id) = true ∨
       hasDup (s.feeders.map FeederRow.part_type) = true ∨
       pickupYConsistent s.feeders = some false ∨
       hasDup (s.placements.map fun p => (p.job_id, p.id)) = true)) ∧
    (∀ e, loadData s = Except.error e → e = (loadDataMsg s).trim) ∧
    (∀ jobs, loadData s = Except.ok jobs →
      jobs.Perm s.jobs ∧ jobs.Sorted fun a b => a.due_time_s ≤ b.due_time_s) := by
  obtain ⟨f0, rest, hfs⟩ : ∃ f0 rest, s.feeders = f0 :: rest := by
    cases hh : s.feeders with
    | nil => exact absurd hh hfe
    | cons a l => exact ⟨a, l, rfl⟩
  obtain ⟨yb, hyb⟩ : ∃ b, pickupYConsistent s.feeders = some b := by
    rw [hfs]
    exact ⟨_, rfl⟩
  have hld : loadData s =
      if loadDataMsg s = "" then Except.ok (sortByKey JobRow.due_time_s s.jobs)
      else Except.error (loadDataMsg s).trim := by
    unfold loadData
    rw [hyb]
  have key : loadDataMsg s = "" ↔
      ¬ (hasDup (s.jobs.map JobRow.id) = true ∨
         hasDup (s.tools.map ToolRow.part_type) = true ∨
         hasDup (s.feeders.map FeederRow.id) = true ∨
         hasDup (s.feeders.map FeederRow.part_type) = true ∨
         pickupYConsistent s.feeders = some false ∨
         hasDup (s.placements.map fun p => (p.job_id, p.id)) = true) := by
    unfold loadDataMsg
    rw [hyb]
    cases h1 : hasDup (s.jobs.map JobRow.id) <;>
    cases h2 : hasDup (s.tools.map ToolRow.part_type) <;>
    cases h3 : hasDup (s.feeders.map FeederRow.id) <;>
    cases h4 : hasDup (s.feeders.map FeederRow.part_type) <;>
    cases yb <;>
    cases h6 : hasDup (s.placements.map fun p => (p.job_id, p.id)) <;>
      decide
  refine ⟨⟨?_, ?_⟩, ?_, ?_⟩
  · rintro ⟨e, he⟩
    by_contra hc
    have hmsg : loadDataMsg s = "" := key.mpr hc
    rw [hld, if_pos hmsg] at he
    cases he
  · intro hc
    refine ⟨(loadDataMsg s).trim, ?_⟩
    rw [hld, if_neg]
    intro h0
    exact (key.mp h0) hc
  · intro e he
    rw [hld] at he
    by_cases h : loadDataMsg s = ""
    · rw [if_pos h] at he
      cases he
    · rw [if_neg h] at he
      exact (Except.error.inj he).symm
  · intro jobs hok
    rw [hld] at hok
    by_cases h : loadDataMsg s = ""
    · rw [if_pos h] at hok
      have hj : jobs = sortByKey JobRow.due_time_s s.jobs := (Except.ok.inj hok).symm
      subst hj
      exact ⟨sortByKey_perm _ _, sortByKey_sorted _ _⟩
    · rw [if_neg h] at hok
      cases hok

/-- A fully valid C9 input, its job rows listed out of due-time order. -/
def sC9ok : SetupInput :=
  { tools := [⟨7, 1⟩, ⟨8, 2⟩]
    feeders := [⟨100, 7, 0, 0⟩, ⟨101, 8, 10, 0⟩]
    jobs := [⟨1, 1, 200⟩, ⟨2, 1, 100⟩]
    placements := [⟨1, 1, 7⟩, ⟨2, 1, 8⟩] }

/-- C9 witness: the `load_data` theorem applies to a concrete input whose
feeders sheet is non-empty. -/
theorem C9_witness :
    sC9ok.feeders ≠ [] ∧
    (∀ jobs, loadData sC9ok = Except.ok jobs →
      jobs.Perm sC9ok.jobs ∧ jobs.Sorted fun a b => a.due_time_s ≤ b.due_time_s) :=
  ⟨by decide, (C9_thm sC9ok (by decide)).2.2⟩

lemma foldl_clusterStep_sound (job : Job) :
    ∀ (fs : List Node) (acc : ℕ → List (List Node)),
      (∀ pt, ∀ c ∈ acc pt, ∀ x ∈ c, x.part_type = pt ∧ x ∈ job.placements) →
      ∀ pt, ∀ c ∈ fs.foldl (clusterStep job) acc pt, ∀ x ∈ c,
        x.part_type = pt ∧ x ∈ job.placements := by
  intro fs
  induction fs with
  | nil =>
    intro acc hacc
    exact hacc
  | cons g fs ih =>
    intro acc hacc
    rw [List.foldl_cons]
    apply ih
    intro pt c hc x hx
    by_cases hpt : pt = g.part_type
    · have hc2 : c ∈ chunkList job.machine.head_capacity
          (sortByKey (fun pl => job.feeder_placement_distances g.id pl.id)
            (job.placements.filter fun pl => pl.part_type == g.part_type)) := by
        simpa [clusterStep, hpt] using hc
      have hxs : x ∈ sortByKey (fun pl => job.feeder_placement_distances g.id pl.id)
          (job.placements.filter fun pl => pl.part_type == g.part_type) := by
        have hm : x ∈ (chunkList job.machine.head_capacity
            (sortByKey (fun pl => job.feeder_placement_distances g.id pl.id)
              (job.placements.filter fun pl => pl.part_type == g.part_type))).flatten :=
          List.mem_flatten.mpr ⟨c, hc2, hx⟩
        rwa [chunkList_flatten] at hm
      have hxfil : x ∈ job.placements.filter fun pl => pl.part_type == g.part_type :=
        (sortByKey_perm _ _).mem_iff.mp hxs
      refine ⟨?_, List.mem_of_mem_filter hxfil⟩
      have hdec := List.of_mem_filter hxfil
      rw [hpt]
      simpa using hdec
    · have hc2 : c ∈ acc pt := by
        simpa [clusterStep, hpt] using hc
      exact hacc pt c hc2 x hx

lemma clusterPlacements_sound (job : Job) (pt : ℕ) (c : List Node) (x : Node)
    (hc : c ∈ clusterPlacements job pt) (hx : x ∈ c) :
    x.part_type = pt ∧ x ∈ job.placements :=
  foldl_clusterStep_sound job job.feeders (fun _ => [])
    (fun _ c2 hc2 => absurd hc2 (List.not_mem_nil c2)) pt c hc x hx

/-- Whether an event's detail names the node id `nid` (the interpolated
node ids of the source's pickup/place/travel detail strings; changeover
details name job iterations, not nodes). -/
def mentionsId (nid : ℕ) (e : Event) : Bool :=
  match e.detail with
  | Detail.pickup fid _ => fid == nid
  | Detail.place pid _ => pid == nid
  | Detail.travel i j => i == nid || j == nid
  | Detail.changeover _ _ _ _ => false

lemma getPlacementEvents_not_mentions (job : Job) (nid : ℕ) :
    ∀ (rows : List ArcRow) (evs : List Event),
      (∀ row ∈ rows, row.id_i ≠ nid ∧ row.id_j ≠ nid) →
      getPlacementEvents job rows = Except.ok evs →
      ∀ e ∈ evs, mentionsId nid e = false := by
  intro rows
  induction rows with
  | nil =>
    intro evs _ hok e he
    cases hok
    cases he
  | cons row rest ih =>
    intro evs hrows hok e he
    have hrow := hrows row (List.mem_cons_self _ _)
    unfold getPlacementEvents at hok
    cases hns : resolveNode job row.id_i with
    | none =>
      rw [hns] at hok
      cases hok
    | some nsb =>
      cases hnf : resolveNode job row.id_j with
      | none =>
        rw [hns, hnf] at hok
        cases nsb
        cases hok
      | some nfb =>
        obtain ⟨ns, bs⟩ := nsb
        obtain ⟨nf, bf⟩ := nfb
        rw [hns, hnf] at hok
        cases hrest : getPlacementEvents job rest with
        | error er =>
          rw [hrest] at hok
          cases hok
        | ok evs2 =>
          rw [hrest] at hok
          have hevs : evs = (Event.travel_event ns nf row.arc_time
              ⟨row.x_i, row.y_i, row.x_j, row.y_j, row.arc_distance⟩ ::
            (if bf then [] else [Event.place_event nf job.machine.place_time])) ++ evs2 := by
            cases hok
            rfl
          have hnsid : ns.id = row.id_i := resolveNode_id job row.id_i ns bs hns
          have hnfid : nf.id = row.id_j := resolveNode_id job row.id_j nf bf hnf
          rw [hevs] at he
          rcases List.mem_append.mp he with hm | hm
          · rcases List.mem_cons.mp hm with hm2 | hm2
            · rw [hm2]
              simp [mentionsId, Event.travel_event, hnsid, hnfid, hrow.1, hrow.2]
            · cases bf with
              | true => simp at hm2
              | false =>
                have hm3 : e = Event.place_event nf job.machine.place_time := by
                  simpa using hm2
                rw [hm3]
                simp [mentionsId, Event.place_event, hnfid, hrow.2]
          · exact ih evs2 (fun r hr => hrows r (List.mem_cons_of_mem _ hr)) hrest e hm

lemma clustersEvents_not_mentions (solver : Node → List Node → List ArcRow) (job : Job)
    (feeder : Node) (nid : ℕ) (hfid : feeder.id ≠ nid) :
    ∀ (clusters : List (List Node)) (evs : List Event),
      (∀ cluster ∈ clusters, ∀ row ∈ solver feeder cluster,
        row.id_i ≠ nid ∧ row.id_j ≠ nid) →
      clustersEvents solver job feeder clusters = Except.ok evs →
      ∀ e ∈ evs, mentionsId nid e = false := by
  intro clusters
  induction clusters with
  | nil =>
    intro evs _ hok e he
    cases hok
    cases he
  | cons cluster more ih =>
    intro evs hcl hok e he
    unfold clustersEvents at hok
    cases hpe : getPlacementEvents job (solver feeder cluster) with
    | error er =>
      rw [hpe] at hok
      cases hok
    | ok pevs =>
      rw [hpe] at hok
      cases hrest : clustersEvents solver job feeder more with
      | error er =>
        rw [hrest] at hok
        cases hok
      | ok revs =>
        rw [hrest] at hok
        have hevs : evs = (Event.pick_event feeder job.machine.pick_time :: pevs) ++ revs := by
          cases hok
          rfl
        rw [hevs] at he
        rcases List.mem_append.mp he with hm | hm
        · rcases List.mem_cons.mp hm with hm2 | hm2
          · rw [hm2]
            simp [mentionsId, Event.pick_event, hfid]
          · exact getPlacementEvents_not_mentions job nid (solver feeder cluster) pevs
              (hcl cluster (List.mem_cons_self _ _)) hpe e hm2
        · exact ih revs (fun cl hcl2 => hcl cl (List.mem_cons_of_mem _ hcl2)) hrest e hm

lemma ffStep_not_mentions (job : Job) (fp : Option Node) (f : Node) (nid : ℕ)
    (hfp : ∀ f0, fp = some f0 → f0.id ≠ nid) (hf : f.id ≠ nid) :
    ∀ e ∈ ffStep job fp f, mentionsId nid e = false := by
  intro e he
  cases fp with
  | none => cases he
  | some fprev =>
    have he2 : e ∈ if fprev.id ≠ f.id then [ffTravel job fprev f] else [] := he
    by_cases hne : fprev.id ≠ f.id
    · rw [if_pos hne] at he2
      rw [List.mem_singleton.mp he2]
      simp [mentionsId, ffTravel, Event.travel_event, hfp fprev rfl, hf]
    · rw [if_neg hne] at he2
      cases he2

lemma runJobFeeders_not_mentions (solver : Node → List Node → List ArcRow) (job : Job)
    (nid : ℕ) :
    ∀ (fs : List Node) (fp : Option Node) (evs : List Event) (last : Option Node),
      (∀ f ∈ fs, f.id ≠ nid) →
      (∀ f0, fp = some f0 → f0.id ≠ nid) →
      (∀ f ∈ fs, ∀ cluster ∈ clusterPlacements job f.part_type,
        ∀ row ∈ solver f cluster, row.id_i ≠ nid ∧ row.id_j ≠ nid) →
      runJobFeeders solver job fs fp = Except.ok (evs, last) →
      ∀ e ∈ evs, mentionsId nid e = false := by
  intro fs
  induction fs with
  | nil =>
    intro fp evs last _ _ _ hok e he
    cases hok
    cases he
  | cons f rest ih =>
    intro fp evs last hfs hfp hcl hok e he
    unfold runJobFeeders at hok
    cases hce : clustersEvents solver job f (clusterPlacements job f.part_type) with
    | error er =>
      rw [hce] at hok
      cases hok
    | ok clusterEvs =>
      rw [hce] at hok
      cases hrest : runJobFeeders solver job rest (some f) with
      | error er =>
        rw [hrest] at hok
        cases hok
      | ok out =>
        obtain ⟨restEvs, fLast⟩ := out
        rw [hrest] at hok
        have hevs : evs = ffStep job fp f ++ clusterEvs ++ restEvs := by
          cases hok
          rfl
        have hfnid : f.id ≠ nid := hfs f (List.mem_cons_self _ _)
        rw [hevs] at he
        rcases List.mem_append.mp he with hm | hm
        · rcases List.mem_append.mp hm with hm2 | hm2
          · exact ffStep_not_mentions job fp f nid hfp hfnid e hm2
          · exact clustersEvents_not_mentions solver job f nid hfnid
              (clusterPlacements job f.part_type) clusterEvs
              (hcl f (List.mem_cons_self _ _)) hce e hm2
        · exact ih (some f) restEvs fLast
            (fun g hg => hfs g (List.mem_cons_of_mem _ hg))
            (fun f0 hf0 => by cases hf0; exact hfnid)
            (fun g hg => hcl g (List.mem_cons_of_mem _ hg)) hrest e hm

lemma loadDataMsg_keys (tools : List ToolRow) (feeders : List FeederRow)
    (jobsIn : List JobRow) (ps qs : List PlacementRow)
    (h : ps.map (fun p => (p.job_id, p.id)) = qs.map fun p => (p.job_id, p.id)) :
    loadDataMsg ⟨tools, feeders, jobsIn, ps⟩ = loadDataMsg ⟨tools, feeders, jobsIn, qs⟩ := by
  unfold loadDataMsg
  dsimp only
  rw [h]

/-- C10: a placement whose part type matches no feeder is silently
dropped — `load_data`'s validation never reads a placement's part type
(so the orphan triggers no error), the clusterer assigns the orphan to no
cluster of any feeder, and on a successful run no emitted event's detail
names the orphan's id (the solver hypothesis says each cluster's rows
only name the feeder and cluster members, as §4.2's output contract
states). -/
theorem C10_thm (solver : Node → List Node → List ArcRow) (job : Job) (orphan : Node)
    (hmem : orphan ∈ job.placements)
    (hpt : orphan.part_type ∉ job.feeders.map Node.part_type)
    (hfid : orphan.id ∉ job.feeders.map Node.id)
    (hnodup : (job.placements.map Node.id).Nodup)
    (hsnd : ∀ f ∈ job.feeders, ∀ cluster ∈ clusterPlacements job f.part_type,
      ∀ row ∈ solver f cluster,
        row.id_i ∈ f.id :: cluster.map Node.id ∧ row.id_j ∈ f.id :: cluster.map Node.id) :
    (∀ (s : SetupInput) (g : PlacementRow → ℕ),
      loadDataMsg { tools := s.tools,
                    feeders := s.feeders,
                    jobs := s.jobs,
                    placements := s.placements.map fun p =>
                      { p with part_type := g p } } = loadDataMsg s) ∧
    (∀ f ∈ job.feeders, ∀ c ∈ clusterPlacements job f.part_type, orphan ∉ c) ∧
    (∀ (evs : List Event) (fLast : Option Node),
      runJob solver job none = Except.ok (evs, fLast) →
      ∀ e ∈ evs, mentionsId orphan.id e = false) := by
  have hinj : ∀ x ∈ job.placements, x.id = orphan.id → x = orphan := by
    intro x hx hxid
    exact List.inj_on_of_nodup_map hnodup hx hmem hxid
  refine ⟨?_, ?_, ?_⟩
  · intro s g
    have h : (s.placements.map fun p => ({ p with part_type := g p } : PlacementRow)).map
        (fun p => (p.job_id, p.id)) = s.placements.map fun p => (p.job_id, p.id) := by
      rw [List.map_map]
      rfl
    exact loadDataMsg_keys s.tools s.feeders s.jobs _ _ h
  · intro f hf c hc hx
    have hs := clusterPlacements_sound job f.part_type c orphan hc hx
    exact hpt (hs.1 ▸ List.mem_map_of_mem Node.part_type hf)
  · have hrowne : ∀ f ∈ job.feeders, ∀ cluster ∈ clusterPlacements job f.part_type,
        ∀ row ∈ solver f cluster, row.id_i ≠ orphan.id ∧ row.id_j ≠ orphan.id := by
      intro f hf cluster hcluster row hrow
      have hfne : f.id ≠ orphan.id := by
        intro hc
        exact hfid (hc ▸ List.mem_map_of_mem Node.id hf)
      have hside : ∀ a : ℕ, a ∈ f.id :: cluster.map Node.id → a ≠ orphan.id := by
        intro a ha hac
        rcases List.mem_cons.mp ha with rfl | ha2
        · exact hfne hac
        · obtain ⟨x, hxc, hxid⟩ := List.mem_map.mp ha2
          have hs := clusterPlacements_sound job f.part_type cluster x hcluster hxc
          have hxor : x = orphan := hinj x hs.2 (hxid.trans hac)
          exact hpt (hxor ▸ hs.1 ▸ List.mem_map_of_mem Node.part_type hf)
      exact ⟨hside row.id_i (hsnd f hf cluster hcluster row hrow).1,
        hside row.id_j (hsnd f hf cluster hcluster row hrow).2⟩
    intro evs fLast hok e he
    have hfs : ∀ f ∈ job.feeders, f.id ≠ orphan.id := by
      intro f hf hc
      exact hfid (hc ▸ List.mem_map_of_mem Node.id hf)
    exact runJobFeeders_not_mentions solver job orphan.id job.feeders none evs fLast
      hfs (fun f0 hf0 => by cases hf0) hrowne hok e he

/-- The orphan placement of the C10 example: part type 9, matched by no
feeder. -/
def orphanC10 : Node := ⟨2, 9, 8, 6⟩

/-- The C10 example job: one feeder of part type 7, one matched placement
and the orphan. -/
def jobC10 : Job :=
  { job_id := 4
    machine := ⟨1, 2, 100, 1, 1, 1, 5⟩
    feeders := [fC6]
    placements := [pC6, orphanC10]
    feeder_placement_distances := fun _ _ => 5
    feeder_feeder_distances := fun _ _ => 0
    placement_placement_distances := fun _ _ => 0 }

/-- C10 witness: the orphan-placement theorem applies to the concrete
job, whose single feeder's clusters exclude the orphan. -/
theorem C10_witness :
    (orphanC10 ∈ jobC10.placements ∧
     orphanC10.part_type ∉ jobC10.feeders.map Node.part_type ∧
     orphanC10.id ∉ jobC10.feeders.map Node.id ∧
     (jobC10.placements.map Node.id).Nodup ∧
     (∀ f ∈ jobC10.feeders, ∀ cluster ∈ clusterPlacements jobC10 f.part_type,
       ∀ row ∈ solverC6 f cluster,
         row.id_i ∈ f.id :: cluster.map Node.id ∧
         row.id_j ∈ f.id :: cluster.map Node.id)) ∧
    (∀ f ∈ jobC10.feeders, ∀ c ∈ clusterPlacements jobC10 f.part_type, orphanC10 ∉ c) :=
  ⟨⟨by decide, by decide, by decide, by decide, by decide⟩,
    (C10_thm solverC6 jobC10 orphanC10 (by decide) (by decide) (by decide) (by decide)
      (by decide)).2.1⟩

end PnpOpt
